import Mathlib

set_option autoImplicit false

/-!
# Verification of the pycel `ExcelCompiler` dependency-graph engine

This file gives a shallow embedding, in Lean, of the core of
`src/pycel/excelcompiler.py`: the cell / cell-range data model, the
address-to-node map (`cell_map`), the dependency graph (`dep_graph`), the
memoized evaluator (`_evaluate` / `_evaluate_range`), the invalidator
(`set_value` / `_reset`), `recalculate`, the graph builder
(`_make_cells` / `_gen_graph` / `_process_gen_graph`), the text
serialization codec (`_to_text` / `_from_text` with `_CompiledImporter`),
the trimmer (`trim_graph`) and the pickling hooks
(`__getstate__` / `__setstate__`).

Conventions of the embedding:

* Addresses are canonical strings (the address algebra — sheet
  qualification, range resolution, sort keys — is an external collaborator
  of the repository; here an address is its canonical string form and the
  serialization sort key is the string itself).
* A Python cell value is `Option Value`; `none` models Python `None`,
  which the source uses both for "never computed" and for "invalidated".
* The formula front-end (`ExcelFormula`) is an external collaborator.
  Modelled from the spec: a compiled formula exposes the ordered list of
  precedent addresses it reads and an evaluable form that is run against
  an evaluation context supplying single-cell lookup (which recurses into
  `_evaluate`).  It is modelled by the small expression type `Expr`
  (literals, cell references, addition, multiplication); `_REF_`
  indirection formulas are literals carrying a `Value.ref`.
* Recursive procedures of the source (which recurse on the object graph)
  take an explicit fuel argument; `none` as a result means the
  computation failed (an uncaught Python exception or nontermination).
* The evaluator additionally returns a trace: the list of addresses whose
  compiled formula was invoked, in invocation order.  This instruments
  the memoization contract without changing the computed state.
-/

namespace Pycel

/-- A canonical (sheet-qualified) cell or range address string. -/
abbrev Addr := String

mutual
/-- Spreadsheet values as seen by the engine.  `ref` models an
`AddressRange`/`AddressCell` object returned by a reference-returning
formula; `vlist` models a Python list/tuple. -/
inductive Value where
  | num (n : Int)
  | str (s : String)
  | boolean (b : Bool)
  | err (s : String)
  | vlist (vs : VList)
  | ref (a : Addr)
deriving DecidableEq, Repr
/-- A Python sequence of values; an element may be `None` (`consNone`). -/
inductive VList where
  | nil
  | consNone (tail : VList)
  | consSome (head : Value) (tail : VList)
deriving DecidableEq, Repr
end

/-- Build a Python sequence from a list of optional values. -/
def VList.ofList : List (Option Value) → VList
  | [] => .nil
  | none :: rest => .consNone (VList.ofList rest)
  | some v :: rest => .consSome v (VList.ofList rest)

/-- The `#VALUE!` domain error sentinel (`pycel.excelutil.VALUE_ERROR`). -/
def VALUE_ERROR : Value := .err "#VALUE!"

/-- A Python value slot: `none` is Python `None`. -/
abbrev PyVal := Option Value

/-- `pycel.excelutil.list_like`: is the value a sequence? -/
def list_like : PyVal → Bool
  | some (.vlist _) => true
  | _ => false

/-- Modelled from the spec: the expression form of a compiled formula
(`ExcelFormula` is an external collaborator).  `cellRef` is a single-cell
lookup through the evaluation context; `lit (.ref a)` is the compiled
form of a `=_REF_("a")` indirection formula. -/
inductive Expr where
  | lit (v : Value)
  | cellRef (a : Addr)
  | add (e1 e2 : Expr)
  | mul (e1 e2 : Expr)
deriving DecidableEq, Repr

/-- Modelled from the spec: `needed_addresses` of a compiled formula —
the ordered list of precedent addresses the formula reads. -/
def exprNeededAddrs : Expr → List Addr
  | .lit _ => []
  | .cellRef a => [a]
  | .add e1 e2 => exprNeededAddrs e1 ++ exprNeededAddrs e2
  | .mul e1 e2 => exprNeededAddrs e1 ++ exprNeededAddrs e2

/-- Numeric coercion used by the modelled formula operators (the real
operator semantics live in the external formula library; blanks coerce
to 0, non-numbers become the domain error). -/
def asNum : PyVal → Option Int
  | none => some 0
  | some (.num n) => some n
  | some (.boolean b) => some (if b then 1 else 0)
  | _ => none

/-- Modelled addition of the formula language (never returns a reference). -/
def pyAdd (v1 v2 : PyVal) : PyVal :=
  match asNum v1, asNum v2 with
  | some n1, some n2 => some (.num (n1 + n2))
  | _, _ => some VALUE_ERROR

/-- Modelled multiplication of the formula language (never returns a reference). -/
def pyMul (v1 v2 : PyVal) : PyVal :=
  match asNum v1, asNum v2 with
  | some n1, some n2 => some (.num (n1 * n2))
  | _, _ => some VALUE_ERROR

/-- `_Cell`: a single spreadsheet location.  `value` is the three-state
cached value slot (Python `None` = unset), `formula` the optional
compiled formula.  (The monotonically assigned numeric `id` is only a
hashing tiebreak in the source and plays no role in the verified
operations, so it is not modelled.) -/
structure Cell where
  value : PyVal
  formula : Option Expr
deriving DecidableEq, Repr

/-- `_CellRange`: a rectangular block; `addresses` is the resolved
row-major matrix of member cell addresses, `value` the cached aggregate. -/
structure CellRange where
  addresses : List (List Addr)
  value : PyVal
deriving DecidableEq, Repr

/-- A node of the address-to-node map: a cell or a range. -/
inductive Node where
  | cell (c : Cell)
  | range (r : CellRange)
deriving DecidableEq, Repr

/-- The cached value slot of a node. -/
def Node.value : Node → PyVal
  | .cell c => c.value
  | .range r => r.value

/-- Write the cached value slot of a node. -/
def Node.setValue : Node → PyVal → Node
  | .cell c, v => .cell { c with value := v }
  | .range r, v => .range { r with value := v }

/-- `needed_addresses` of a node: a cell reads its formula's precedents,
a range reads its member cells. -/
def Node.neededAddresses : Node → List Addr
  | .cell c => match c.formula with
    | some e => exprNeededAddrs e
    | none => []
  | .range r => r.addresses.flatten

/-- Strip the formula (used by the trimmer: the node becomes a frozen
literal leaf). -/
def Node.stripFormula : Node → Node
  | .cell c => .cell { c with formula := none }
  | .range r => .range r

/-- Is the node serialized by the text codec?  (`_Cell.serialize = True`,
`_CellRange.serialize = False`.) -/
def Node.serialize : Node → Bool
  | .cell _ => true
  | .range _ => false

/-- `networkx.DiGraph`, keyed by address (the address-to-node map is the
single exclusive owner of nodes, so address identity suffices). -/
structure DiGraph where
  nodes : List Addr
  edges : List (Addr × Addr)
deriving DecidableEq, Repr

/-- Node membership (`cell in self.dep_graph`). -/
def DiGraph.hasNode (g : DiGraph) (a : Addr) : Bool := g.nodes.contains a

/-- `add_node`: a no-op when the node is already present. -/
def DiGraph.addNode (g : DiGraph) (a : Addr) : DiGraph :=
  if g.nodes.contains a then g else { g with nodes := g.nodes ++ [a] }

/-- `add_edge`: inserts both endpoints, then the edge (multiplicity-free). -/
def DiGraph.addEdge (g : DiGraph) (p d : Addr) : DiGraph :=
  let g1 := (g.addNode p).addNode d
  if g1.edges.contains (p, d) then g1
  else { g1 with edges := g1.edges ++ [(p, d)] }

/-- `successors(a)`: dependents of `a`, in edge insertion order. -/
def DiGraph.successors (g : DiGraph) (a : Addr) : List Addr :=
  g.edges.filterMap fun e => if e.1 = a then some e.2 else none

/-- The mutable state of an `ExcelCompiler` instance that the verified
operations touch: the address-to-node map (an insertion-ordered
dictionary), the dependency graph, the two pending-work queues, and the
data carried along for serialization (`_excel_file_md5_digest` and
`extra_data`). -/
structure ExcelCompiler where
  cell_map : List (Addr × Node)
  dep_graph : DiGraph
  graph_todos : List Addr
  range_todos : List Addr
  excel_hash : Option String
  extra_data : List (String × String)
deriving DecidableEq, Repr

/-- Dictionary lookup in the address-to-node map. -/
def mapLookup (m : List (Addr × Node)) (a : Addr) : Option Node :=
  (m.find? fun p => p.1 = a).map fun p => p.2

/-- In-place mutation of one node's cached value slot. -/
def mapSetValue (m : List (Addr × Node)) (a : Addr) (v : PyVal) : List (Addr × Node) :=
  m.map fun p => if p.1 = a then (p.1, p.2.setValue v) else p

/-- In-place formula strip of one node. -/
def mapStripFormula (m : List (Addr × Node)) (a : Addr) : List (Addr × Node) :=
  m.map fun p => if p.1 = a then (p.1, p.2.stripFormula) else p

/-- State with one node's cached value mutated. -/
def stSetValue (st : ExcelCompiler) (a : Addr) (v : PyVal) : ExcelCompiler :=
  { st with cell_map := mapSetValue st.cell_map a v }

/-!
## Evaluator

`_evaluate` / `_evaluate_range`, instrumented with a trace of formula
invocations.  A result `some (st, v, tr)` is the mutated state, the
returned value, and the addresses whose formula was invoked, in order.
-/

/-- The result of one evaluator call. -/
abbrev EvalRes := ExcelCompiler × PyVal × List Addr

/-- Which evaluator entry point (`_evaluate` or `_evaluate_range`). -/
inductive EKind where
  | cell
  | range
deriving DecidableEq, Repr

/-- The evaluable form of a formula run against an evaluation context:
the context supplies single-cell lookup `ev` (which in
`build_eval_context` is `_evaluate` itself).  Modelled from the spec. -/
def evalExprWith (ev : ExcelCompiler → Addr → Option EvalRes) :
    ExcelCompiler → Expr → Option EvalRes
  | st, .lit v => some (st, some v, [])
  | st, .cellRef a => ev st a
  | st, .add e1 e2 =>
    match evalExprWith ev st e1 with
    | none => none
    | some (st1, v1, t1) =>
      match evalExprWith ev st1 e2 with
      | none => none
      | some (st2, v2, t2) => some (st2, pyAdd v1 v2, t1 ++ t2)
  | st, .mul e1 e2 =>
    match evalExprWith ev st e1 with
    | none => none
    | some (st1, v1, t1) =>
      match evalExprWith ev st1 e2 with
      | none => none
      | some (st2, v2, t2) => some (st2, pyMul v1 v2, t1 ++ t2)

/-- Evaluate one row of a range's member matrix, threading the state and
collecting the member values. -/
def evalRowWith (ev : ExcelCompiler → Addr → Option EvalRes) :
    ExcelCompiler → List Addr → Option (ExcelCompiler × List PyVal × List Addr)
  | st, [] => some (st, [], [])
  | st, a :: rest =>
    match ev st a with
    | none => none
    | some (st1, v, t1) =>
      match evalRowWith ev st1 rest with
      | none => none
      | some (st2, vs, t2) => some (st2, v :: vs, t1 ++ t2)

/-- Evaluate all rows of a range's member matrix. -/
def evalRowsWith (ev : ExcelCompiler → Addr → Option EvalRes) :
    ExcelCompiler → List (List Addr) → Option (ExcelCompiler × List PyVal × List Addr)
  | st, [] => some (st, [], [])
  | st, row :: rest =>
    match evalRowWith ev st row with
    | none => none
    | some (st1, vs, t1) =>
      match evalRowsWith ev st1 rest with
      | none => none
      | some (st2, rows, t2) =>
        some (st2, some (.vlist (VList.ofList vs)) :: rows, t1 ++ t2)

/-- The compute phase of `_evaluate`: when the node's cached value is
unset, compute it — recursing into `_evaluate_range` (`evr`) for a range
node, invoking the compiled formula against the evaluation context
(`evc`) for a formula cell and caching the result, with a non-scalar
result replaced by `VALUE_ERROR`.  Returns the mutated state and the
formula-invocation trace. -/
def computeStep (evc evr : ExcelCompiler → Addr → Option EvalRes)
    (st : ExcelCompiler) (addr : Addr) (node : Node) :
    Option (ExcelCompiler × List Addr) :=
  if node.value = none then
    match node with
    | .range _ =>
      match evr st addr with
      | none => none
      | some (st1, _, tr) => some (st1, tr)
    | .cell c =>
      match c.formula with
      | some e =>
        match evalExprWith evc st e with
        | none => none
        | some (st1, v, tr) =>
          let v1 := if list_like v then some VALUE_ERROR else v
          some (stSetValue st1 addr v1, addr :: tr)
      | none => some (st, [])
  else some (st, [])

/-- The final phase of `_evaluate`: re-read the node's cached value and,
if it is an address reference, dereference it by recursing (`evc`) on
the referenced address's string form. -/
def derefStep (evc : ExcelCompiler → Addr → Option EvalRes)
    (st1 : ExcelCompiler) (tr1 : List Addr) (addr : Addr) : Option EvalRes :=
  match mapLookup st1.cell_map addr with
  | none => none
  | some node1 =>
    match node1.value with
    | some (.ref r) =>
      match evc st1 r with
      | none => none
      | some (st2, v2, tr2) => some (st2, v2, tr1 ++ tr2)
    | v => some (st1, v, tr1)

/-- The body of `_evaluate_range`: when the aggregate is unset, evaluate
every member cell (`evc`) and cache the nested row-major sequence;
otherwise return the cached aggregate.  (`_evaluate_range` on a `_Cell`
node with an unset value has no member matrix — an `AttributeError`.) -/
def rangeStep (evc : ExcelCompiler → Addr → Option EvalRes)
    (st : ExcelCompiler) (addr : Addr) (node : Node) : Option EvalRes :=
  if node.value = none then
    match node with
    | .cell _ => none
    | .range rg =>
      match evalRowsWith evc st rg.addresses with
      | none => none
      | some (st1, rows, tr) =>
        let data : PyVal := some (.vlist (VList.ofList rows))
        some (stSetValue st1 addr data, data, tr)
  else some (st, node.value, [])

/-- `_evaluate` (kind `.cell`) and `_evaluate_range` (kind `.range`),
by fuel.  `_evaluate`: look the node up in `cell_map`; when its cached
value is unset, compute it (`computeStep`); finally, if the cached value
is an address reference, dereference it (`derefStep`).
`_evaluate_range`: `rangeStep`.  (The source rebuilds a missing range
node from the data source inside `_evaluate_range`; the build-on-miss
path belongs to the graph builder and a missing node is a failure
here.) -/
def evalNode : Nat → EKind → ExcelCompiler → Addr → Option EvalRes
  | 0, _, _, _ => none
  | Nat.succ f, .cell, st, addr =>
    match mapLookup st.cell_map addr with
    | none => none
    | some node =>
      match computeStep (evalNode f .cell) (evalNode f .range) st addr node with
      | none => none
      | some (st1, tr1) => derefStep (evalNode f .cell) st1 tr1 addr
  | Nat.succ f, .range, st, addr =>
    match mapLookup st.cell_map addr with
    | none => none
    | some node => rangeStep (evalNode f .cell) st addr node

/-- `ExcelCompiler._evaluate`. -/
def _evaluate (fuel : Nat) (st : ExcelCompiler) (addr : Addr) : Option EvalRes :=
  evalNode fuel .cell st addr

/-- `ExcelCompiler._evaluate_range`. -/
def _evaluate_range (fuel : Nat) (st : ExcelCompiler) (addr : Addr) : Option EvalRes :=
  evalNode fuel .range st addr

/-!
## Invalidator: `_reset` and `set_value`
-/

/-- `_reset` and its successor loop, as one fuelled function:
`.inl addr` is a `_reset(addr)` call, `.inr children` is the loop over
the remaining successors.  A node whose cached value is already unset
short-circuits; otherwise its value is cleared and the reset cascades
depth-first to every graph successor whose cached value is currently
set.  (The graph is traversed by address; the map is the exclusive
owner of nodes.) -/
def resetGo : Nat → ExcelCompiler → (Addr ⊕ List Addr) → Option ExcelCompiler
  | 0, _, _ => none
  | Nat.succ f, st, .inl addr =>
    match mapLookup st.cell_map addr with
    | none => some st
    | some node =>
      if node.value = none then some st
      else
        let st1 := stSetValue st addr none
        if st1.dep_graph.hasNode addr then
          resetGo f st1 (.inr (st1.dep_graph.successors addr))
        else some st1
  | Nat.succ _, st, .inr [] => some st
  | Nat.succ f, st, .inr (c :: rest) =>
    match mapLookup st.cell_map c with
    | none => resetGo f st (.inr rest)
    | some cn =>
      if cn.value = none then resetGo f st (.inr rest)
      else
        match resetGo f st (.inl c) with
        | none => none
        | some st1 => resetGo f st1 (.inr rest)

/-- `_reset` on one node. -/
def _reset (fuel : Nat) (st : ExcelCompiler) (addr : Addr) : Option ExcelCompiler :=
  resetGo fuel st (.inl addr)

/-- `set_value` for a single address (the array-valued branch of the
source flattens the addresses and values and performs one scalar write
per pair, so the scalar write is the primitive modelled here).  An
address without a node fails (`assert address in self.cell_map`).  When
the new value equals the cached value nothing happens; otherwise the
node and its dependents are reset and only then is the new value
written. -/
def set_value (fuel : Nat) (st : ExcelCompiler) (addr : Addr) (value : PyVal) :
    Option ExcelCompiler :=
  match mapLookup st.cell_map addr with
  | none => none
  | some node =>
    if node.value = value then some st
    else
      let st0 := if node.value = none then stSetValue st addr value else st
      match _reset fuel st0 addr with
      | none => none
      | some st1 => some (stSetValue st1 addr value)

/-!
## `recalculate`
-/

/-- The clearing rule of `recalculate`'s first loop: a `_CellRange`
node or a formula-carrying cell has its cached value cleared; a
formula-less cell is left alone. -/
def recalcClearNode : Node → Node
  | .range r => .range { r with value := none }
  | .cell c => if c.formula.isSome then .cell { c with value := none } else .cell c

/-- The first loop of `recalculate`: clear the cached value of every
`_CellRange` node and of every cell that carries a formula. -/
def recalcClear (st : ExcelCompiler) : ExcelCompiler :=
  { st with cell_map := st.cell_map.map fun p => (p.1, recalcClearNode p.2) }

/-- The second loop of `recalculate`: evaluate every node of the map
(ranges through `_evaluate_range`, cells through `_evaluate`). -/
def recalcEvalAll (fuel : Nat) : ExcelCompiler → List Addr → Option ExcelCompiler
  | st, [] => some st
  | st, a :: rest =>
    match mapLookup st.cell_map a with
    | none => none
    | some node =>
      let r := match node with
        | .range _ => _evaluate_range fuel st a
        | .cell _ => _evaluate fuel st a
      match r with
      | none => none
      | some (st1, _, _) => recalcEvalAll fuel st1 rest

/-- `recalculate`: clear all formula cells and ranges, then evaluate
every known cell. -/
def recalculate (fuel : Nat) (st : ExcelCompiler) : Option ExcelCompiler :=
  let st1 := recalcClear st
  recalcEvalAll fuel st1 (st1.cell_map.map fun p => p.1)

/-!
## Graph builder: `_make_cells`, `_process_gen_graph`, `_gen_graph`
-/

/-- What the data source returns for one cell (`RangeData` restricted to
a single cell): an optional formula and a literal value.  (The Python
wrapper returns the formula as a string, `''` meaning no formula.) -/
structure CellData where
  formula : Option Expr
  value : PyVal
deriving DecidableEq, Repr

/-- The data source contract consumed by the builder (`get_range`
restricted to single-cell addresses; see `_make_cells` below). -/
structure DataSource where
  getCell : Addr → CellData

/-- `_make_cells` for a single-cell address: asserts the address is not
yet in the map, fetches its data from the source, adds the cell to the
map, and — when the cell carries a formula — adds it to the graph and
to the pending-edges queue.  (The rectangular/unbounded-range branch of
`_make_cells`, which additionally creates a `_CellRange` plus its member
cells, is not modelled; the claims under verification exercise only
single-cell records and seeds.) -/
def _make_cells (src : DataSource) (st : ExcelCompiler) (addr : Addr) :
    Option ExcelCompiler :=
  match mapLookup st.cell_map addr with
  | some _ => none
  | none =>
    let data := src.getCell addr
    let cell : Cell := { value := data.value, formula := data.formula }
    let st1 := { st with cell_map := st.cell_map ++ [(addr, .cell cell)] }
    if data.formula.isSome then
      some { st1 with dep_graph := st1.dep_graph.addNode addr,
                      graph_todos := st1.graph_todos ++ [addr] }
    else some st1

/-- The inner loop of `_process_gen_graph`: for every precedent address
of the pending node, build it if missing (`_gen_graph(..., recursed=True)`)
and add the precedent → dependent edge. -/
def processPrecedents (src : DataSource) (dep : Addr) :
    ExcelCompiler → List Addr → Option ExcelCompiler
  | st, [] => some st
  | st, p :: rest =>
    let stO : Option ExcelCompiler :=
      if (mapLookup st.cell_map p).isSome then some st else _make_cells src st p
    match stO with
    | none => none
    | some st1 =>
      processPrecedents src dep { st1 with dep_graph := st1.dep_graph.addEdge p dep } rest

/-- The final loop of `_process_gen_graph`: evaluate the ranges
discovered during the pass, in reverse discovery order. -/
def evalRangeTodos (fuel : Nat) : ExcelCompiler → List Addr → Option ExcelCompiler
  | st, [] => some st
  | st, a :: rest =>
    match _evaluate_range fuel st a with
    | none => none
    | some (st1, _, _) => evalRangeTodos fuel st1 rest

/-- `_process_gen_graph`: drain the pending-edges queue (a stack — the
source pops from the end), wiring precedent edges and recursively
building missing precedents; afterwards evaluate the discovered ranges
and clear the range queue. -/
def _process_gen_graph (src : DataSource) : Nat → ExcelCompiler → Option ExcelCompiler
  | 0, _ => none
  | f + 1, st =>
    match st.graph_todos.getLast? with
    | some dep =>
      let st0 := { st with graph_todos := st.graph_todos.dropLast }
      let needed := match mapLookup st0.cell_map dep with
        | some n => n.neededAddresses
        | none => []
      match processPrecedents src dep st0 needed with
      | none => none
      | some st1 => _process_gen_graph src f st1
    | none =>
      match evalRangeTodos f st st.range_todos.reverse with
      | none => none
      | some st1 => some { st1 with range_todos := [] }

/-- `_gen_graph` on a single seed (with `recursed=False`): if the seed
already has a node, return immediately; otherwise build it and drain the
pending work. -/
def _gen_graph (src : DataSource) (fuel : Nat) (st : ExcelCompiler) (seed : Addr) :
    Option ExcelCompiler :=
  if (mapLookup st.cell_map seed).isSome then some st
  else
    match _make_cells src st seed with
    | none => none
    | some st1 => _process_gen_graph src fuel st1

/-- The seed loop of `_gen_graph` on an iterable of seeds: every seed is
built recursively first, then the pending work is drained once. -/
def genGraphSeedLoop (src : DataSource) : ExcelCompiler → List Addr → Option ExcelCompiler
  | st, [] => some st
  | st, s :: rest =>
    let stO : Option ExcelCompiler :=
      if (mapLookup st.cell_map s).isSome then some st else _make_cells src st s
    match stO with
    | none => none
    | some st1 => genGraphSeedLoop src st1 rest

/-- `_gen_graph` on an iterable of seeds. -/
def genGraphSeeds (src : DataSource) (fuel : Nat) (st : ExcelCompiler)
    (seeds : List Addr) : Option ExcelCompiler :=
  match genGraphSeedLoop src st seeds with
  | none => none
  | some st1 => _process_gen_graph src fuel st1

/-!
## Persistence codec: `_to_text` and `_from_text`
-/

/-- One record of the textual `cell_map`: either a formula (serialized
as `'=' + python_code`) or a literal value (Python `None` serializes as
a null record). -/
inductive CellRecord where
  | fmla (e : Expr)
  | val (v : PyVal)
deriving DecidableEq, Repr

/-- `cell_value` of `_to_text`: a cell with a formula serializes as the
formula text, otherwise as its value. -/
def cell_value (c : Cell) : CellRecord :=
  match c.formula with
  | some e => .fmla e
  | none => .val c.value

/-- The serializable records of a map: one record per `_Cell`
(`serialize = True`); `_CellRange` nodes are not serialized. -/
def serializableRecords (m : List (Addr × Node)) : List (Addr × CellRecord) :=
  m.filterMap fun p =>
    match p.2 with
    | .cell c => some (p.1, cell_value c)
    | .range _ => none

/-- Record order in the text form: sorted by the address sort key (the
address algebra's total order; modelled by the canonical string). -/
def keyLe (p q : Addr × CellRecord) : Prop := p.1 ≤ q.1

instance : DecidableRel keyLe := fun p q => by
  unfold keyLe; infer_instance

/-- The content of a serialized text file: the `excel_hash` fingerprint,
the pass-through auxiliary metadata, and the sorted `cell_map` records. -/
structure TextData where
  excel_hash : Option String
  extra : List (String × String)
  cell_map : List (Addr × CellRecord)
deriving DecidableEq, Repr

/-- `_to_text`: serialize the hash, the extra data, and one sorted
record per serializable node. -/
def _to_text (st : ExcelCompiler) : TextData :=
  { excel_hash := st.excel_hash
    extra := st.extra_data
    cell_map := List.insertionSort keyLe (serializableRecords st.cell_map) }

/-- `_CompiledImporter._get_cell`: a missing record reads as an empty
cell, a formula record as formula text with no value, and a literal
record as a value with no formula. -/
def recordCellData : CellRecord → CellData
  | .fmla e => { formula := some e, value := none }
  | .val v => { formula := none, value := v }

/-- `_CompiledImporter`: the replay data source over the stored records
(it implements the same fetch contract as the live wrapper). -/
def importerOf (records : List (Addr × CellRecord)) : DataSource :=
  ⟨fun a =>
    match (records.find? fun p => p.1 = a).map fun p => p.2 with
    | none => { formula := none, value := none }
    | some r => recordCellData r⟩

/-- The record loop of `_from_text`: `_make_cells` once per stored
record address. -/
def buildRecords (src : DataSource) : ExcelCompiler → List Addr → Option ExcelCompiler
  | st, [] => some st
  | st, a :: rest =>
    match _make_cells src st a with
    | none => none
    | some st1 => buildRecords src st1 rest

/-- `_from_text`: replay the graph builder over the stored records
through a `_CompiledImporter`, then drain the pending work; the stored
hash and the remaining metadata are carried over. -/
def _from_text (t : TextData) : Option ExcelCompiler :=
  let src := importerOf t.cell_map
  let st0 : ExcelCompiler :=
    { cell_map := [], dep_graph := ⟨[], []⟩, graph_todos := [], range_todos := [],
      excel_hash := t.excel_hash, extra_data := t.extra }
  match buildRecords src st0 (t.cell_map.map fun p => p.1) with
  | none => none
  | some st1 => _process_gen_graph src (t.cell_map.length + 1) st1

/-!
## Trimmer: `trim_graph`
-/

/-- `walk_dependents` and its child loop, as one fuelled function:
`.inl addr` walks one node's successors, `.inr children` is the loop
over the remaining children — every child not yet needed is added to
the needed set and walked recursively.  (`successors` raised on a node
absent from the graph is handled by the caller; recursive calls only
ever visit graph nodes.) -/
def walkDepGo : Nat → DiGraph → List Addr → (Addr ⊕ List Addr) → Option (List Addr)
  | 0, _, _, _ => none
  | Nat.succ f, g, needed, .inl addr => walkDepGo f g needed (.inr (g.successors addr))
  | Nat.succ _, _, needed, .inr [] => some needed
  | Nat.succ f, g, needed, .inr (c :: rest) =>
    if c ∈ needed then walkDepGo f g needed (.inr rest)
    else
      match walkDepGo f g (needed ++ [c]) (.inl c) with
      | none => none
      | some nd => walkDepGo f g nd (.inr rest)

/-- `walk_dependents` on one input node. -/
def walkDependents (fuel : Nat) (g : DiGraph) (needed : List Addr) (addr : Addr) :
    Option (List Addr) :=
  walkDepGo fuel g needed (.inl addr)

/-- The input loop of `trim_graph` step 2, wrapped in the source's
`try`: an input without a node in the map is logged and skipped; an
input with a node but absent from the graph makes `successors` raise
`NetworkXError`, which aborts the loop — the result carries the needed
set accumulated so far together with the raising address, which the
caller turns into a `ValueError` unless the address is also an output. -/
def trimStep2 (fuel : Nat) (g : DiGraph) (m : List (Addr × Node)) :
    List Addr → List Addr → Option (List Addr × Option Addr)
  | [], needed => some (needed, none)
  | a :: rest, needed =>
    if (mapLookup m a).isSome then
      if g.hasNode a then
        match walkDependents fuel g needed a with
        | none => none
        | some nd => trimStep2 fuel g m rest nd
      else some (needed, some a)
    else trimStep2 fuel g m rest needed

/-- Set-union on the needed list (Python `set.add` per element). -/
def listUnion (xs ys : List Addr) : List Addr :=
  ys.foldl (fun acc y => if y ∈ acc then acc else acc ++ [y]) xs

/-- `walk_precedents` and its precedent loop, as one fuelled function:
`.inl node` walks one node's formula precedents, `.inr children` is the
loop over the remaining precedents.  A precedent that is needed or is a
range address is walked further, any other precedent has its formula
stripped (it becomes a frozen literal leaf) and is added to the needed
set.  A precedent without a node is a fatal `KeyError`. -/
def walkPrecGo : Nat → List (Addr × Node) → List Addr → List Addr →
    (Node ⊕ List Addr) → Option (List (Addr × Node) × List Addr × List Addr)
  | 0, _, _, _, _ => none
  | Nat.succ f, m, needed, processed, .inl node =>
    walkPrecGo f m needed processed (.inr node.neededAddresses)
  | Nat.succ _, m, needed, processed, .inr [] => some (m, needed, processed)
  | Nat.succ f, m, needed, processed, .inr (child :: rest) =>
    if child ∈ processed then walkPrecGo f m needed processed (.inr rest)
    else
      let pr := processed ++ [child]
      match mapLookup m child with
      | none => none
      | some cn =>
        if child ∈ needed ∨ child.data.contains ':' then
          match walkPrecGo f m needed pr (.inl cn) with
          | none => none
          | some (m1, nd1, pr1) => walkPrecGo f m1 nd1 pr1 (.inr rest)
        else
          walkPrecGo f (mapStripFormula m child) (needed ++ [child]) pr (.inr rest)

/-- `walk_precedents` on one output node. -/
def walkPrecedents (fuel : Nat) (m : List (Addr × Node)) (needed processed : List Addr)
    (node : Node) : Option (List (Addr × Node) × List Addr × List Addr) :=
  walkPrecGo fuel m needed processed (.inl node)

/-- The output loop of `trim_graph` step 3 (`processed_cells` is shared
across outputs); an output without a node is a fatal `KeyError`. -/
def trimStep3 (fuel : Nat) : List (Addr × Node) → List Addr → List Addr → List Addr →
    Option (List (Addr × Node) × List Addr)
  | m, needed, _, [] => some (m, needed)
  | m, needed, processed, a :: rest =>
    match mapLookup m a with
    | none => none
    | some n =>
      match walkPrecedents fuel m needed processed n with
      | none => none
      | some (m1, nd1, pr1) => trimStep3 fuel m1 nd1 pr1 rest

/-- The outcome of `trim_graph`: success, or the `ValueError` raised
when a walked input raised `NetworkXError` and is not an output. -/
inductive TrimOutcome where
  | ok (st : ExcelCompiler)
  | valueError (a : Addr)
deriving DecidableEq, Repr

/-- Steps 3–5 of `trim_graph`: outputs are always needed, the precedent
walk trims now-unneeded formulas, and every address not in the needed
set is deleted from the map (step 4 only logs non-leaf inputs). -/
def trimFinish (fuel : Nat) (st1 : ExcelCompiler) (needed : List Addr)
    (output_addrs : List Addr) : Option TrimOutcome :=
  let needed1 := listUnion needed output_addrs
  match trimStep3 fuel st1.cell_map needed1 [] output_addrs with
  | none => none
  | some (m1, needed2) =>
    some (.ok { st1 with cell_map := m1.filter fun p => p.1 ∈ needed2 })

/-- `trim_graph`: build the graph for the outputs, walk dependents of
the inputs (NetworkXError on an input that is not an output becomes a
`ValueError`), then trim and delete. -/
def trim_graph (src : DataSource) (fuel : Nat) (st : ExcelCompiler)
    (input_addrs output_addrs : List Addr) : Option TrimOutcome :=
  match genGraphSeeds src fuel st output_addrs with
  | none => none
  | some st1 =>
    match trimStep2 fuel st1.dep_graph st1.cell_map input_addrs [] with
    | none => none
    | some (needed, exc) =>
      match exc with
      | some a =>
        if a ∈ output_addrs then trimFinish fuel st1 needed output_addrs
        else some (.valueError a)
      | none => trimFinish fuel st1 needed output_addrs

/-!
## Pickling: `__getstate__` and `__setstate__`
-/

/-- The attribute dictionary (`__dict__`) of an `ExcelCompiler` instance
as pickling sees it: the handles the source nulls out are optional
(`none` models an attribute holding Python `None`). -/
structure CompilerObj where
  eval : Option Unit
  excel : Option Unit
  log : Option String
  graph_todos : Option (List Addr)
  range_todos : Option (List Addr)
  cell_map : List (Addr × Node)
  dep_graph : DiGraph
  excel_hash : Option String
  extra_data : List (String × String)
deriving DecidableEq, Repr

/-- `__getstate__`: the pickled state is a copy of the attribute
dictionary with `eval`, `excel`, `log`, `graph_todos` and `range_todos`
replaced by `None` (code objects and handles are not serializable). -/
def __getstate__ (o : CompilerObj) : CompilerObj :=
  { o with eval := none, excel := none, log := none,
           graph_todos := none, range_todos := none }

/-- `__setstate__`: the attribute dictionary is restored from the
pickled state and then the logger is re-created. -/
def __setstate__ (d : CompilerObj) : CompilerObj :=
  { d with log := some "pycel" }

/-- A pickle round trip: `pickle.load` builds the instance from the
stored state via `__setstate__` without running `__init__`. -/
def pickleRoundTrip (o : CompilerObj) : CompilerObj :=
  __setstate__ (__getstate__ o)

/-!
## Basic lemmas about the address-to-node map
-/

@[simp]
theorem Node.value_setValue (n : Node) (v : PyVal) : (n.setValue v).value = v := by
  cases n <;> rfl

@[simp]
theorem Node.setValue_setValue (n : Node) (v w : PyVal) :
    (n.setValue v).setValue w = n.setValue w := by
  cases n <;> rfl

@[simp]
theorem mapLookup_nil (a : Addr) : mapLookup [] a = none := rfl

theorem mapLookup_cons (p : Addr × Node) (m : List (Addr × Node)) (a : Addr) :
    mapLookup (p :: m) a = if p.1 = a then some p.2 else mapLookup m a := by
  by_cases h : p.1 = a <;> simp [mapLookup, List.find?_cons, h]

theorem mapSetValue_cons (p : Addr × Node) (m : List (Addr × Node)) (a : Addr) (v : PyVal) :
    mapSetValue (p :: m) a v =
      (if p.1 = a then (p.1, p.2.setValue v) else p) :: mapSetValue m a v := rfl

theorem mapLookup_setValue (m : List (Addr × Node)) (a : Addr) (v : PyVal) (b : Addr) :
    mapLookup (mapSetValue m a v) b =
      if a = b then (mapLookup m b).map (fun n => n.setValue v)
      else mapLookup m b := by
  induction m with
  | nil => by_cases h : a = b <;> simp [mapSetValue, h]
  | cons p m ih =>
    rw [mapSetValue_cons]
    by_cases hpa : p.1 = a
    · by_cases hab : a = b
      · subst hab
        simp [mapLookup_cons, hpa]
      · have hpb : p.1 ≠ b := by
          rw [hpa]; exact hab
        simp [mapLookup_cons, hpa, hpb, hab, ih]
    · by_cases hpb : p.1 = b
      · have hab : ¬ a = b := by
          intro h; rw [h] at hpa; exact hpa hpb
        have hba : ¬ b = a := fun h => hab h.symm
        simp [mapLookup_cons, hpa, hpb, hab, hba]
      · simp [mapLookup_cons, hpa, hpb, ih]

theorem mapLookup_setValue_self (m : List (Addr × Node)) (a : Addr) (v : PyVal) :
    mapLookup (mapSetValue m a v) a = (mapLookup m a).map (fun n => n.setValue v) := by
  simp [mapLookup_setValue]

theorem mapLookup_setValue_ne (m : List (Addr × Node)) (a : Addr) (v : PyVal)
    (b : Addr) (h : a ≠ b) :
    mapLookup (mapSetValue m a v) b = mapLookup m b := by
  simp [mapLookup_setValue, h]

@[simp]
theorem stSetValue_cell_map (st : ExcelCompiler) (a : Addr) (v : PyVal) :
    (stSetValue st a v).cell_map = mapSetValue st.cell_map a v := rfl

@[simp]
theorem stSetValue_dep_graph (st : ExcelCompiler) (a : Addr) (v : PyVal) :
    (stSetValue st a v).dep_graph = st.dep_graph := rfl

@[simp]
theorem stSetValue_graph_todos (st : ExcelCompiler) (a : Addr) (v : PyVal) :
    (stSetValue st a v).graph_todos = st.graph_todos := rfl

@[simp]
theorem stSetValue_range_todos (st : ExcelCompiler) (a : Addr) (v : PyVal) :
    (stSetValue st a v).range_todos = st.range_todos := rfl

@[simp]
theorem stSetValue_excel_hash (st : ExcelCompiler) (a : Addr) (v : PyVal) :
    (stSetValue st a v).excel_hash = st.excel_hash := rfl

@[simp]
theorem stSetValue_extra_data (st : ExcelCompiler) (a : Addr) (v : PyVal) :
    (stSetValue st a v).extra_data = st.extra_data := rfl

/-!
## Shape preservation of the evaluator

The evaluator only ever fills cached-value slots: it never creates or
removes nodes, never changes a formula, never touches the graph or the
queues, and never writes to a cell that has no formula.  This is the
frame property behind the memoization and recalculation claims.
-/

/-- Node-level frame relation: the formula (and, for a formula-less
cell, the value) and the range member matrix are unchanged. -/
def nodeShape : Node → Node → Prop
  | .cell c, .cell c' => c'.formula = c.formula ∧ (c.formula = none → c'.value = c.value)
  | .range r, .range r' => r'.addresses = r.addresses
  | _, _ => False

/-- Map-level frame relation, pointwise under lookup. -/
def shapePres (m m' : List (Addr × Node)) : Prop :=
  ∀ a, match mapLookup m a, mapLookup m' a with
    | none, none => True
    | some n, some n' => nodeShape n n'
    | _, _ => False

/-- State-level frame relation of one evaluator call. -/
def evalPres (st st' : ExcelCompiler) : Prop :=
  shapePres st.cell_map st'.cell_map ∧ st'.dep_graph = st.dep_graph ∧
  st'.graph_todos = st.graph_todos ∧ st'.range_todos = st.range_todos ∧
  st'.excel_hash = st.excel_hash ∧ st'.extra_data = st.extra_data

theorem nodeShape_refl (n : Node) : nodeShape n n := by
  cases n <;> simp [nodeShape]

theorem nodeShape_trans {n1 n2 n3 : Node} (h1 : nodeShape n1 n2) (h2 : nodeShape n2 n3) :
    nodeShape n1 n3 := by
  cases n1 <;> cases n2 <;> cases n3 <;> simp [nodeShape] at *
  · exact ⟨h2.1.trans h1.1, fun hf => (h2.2 (h1.1.trans hf)).trans (h1.2 hf)⟩
  · exact h2.trans h1

theorem shapePres_refl (m : List (Addr × Node)) : shapePres m m := by
  intro a
  cases mapLookup m a with
  | none => trivial
  | some n => exact nodeShape_refl n

theorem shapePres_trans {m1 m2 m3 : List (Addr × Node)}
    (h1 : shapePres m1 m2) (h2 : shapePres m2 m3) : shapePres m1 m3 := by
  intro a
  have g1 := h1 a
  have g2 := h2 a
  cases hm1 : mapLookup m1 a <;> cases hm2 : mapLookup m2 a <;>
    cases hm3 : mapLookup m3 a <;> simp [hm1, hm2, hm3] at g1 g2 ⊢
  · exact nodeShape_trans g1 g2

theorem evalPres_refl (st : ExcelCompiler) : evalPres st st :=
  ⟨shapePres_refl _, rfl, rfl, rfl, rfl, rfl⟩

theorem evalPres_trans {st1 st2 st3 : ExcelCompiler}
    (h1 : evalPres st1 st2) (h2 : evalPres st2 st3) : evalPres st1 st3 :=
  ⟨shapePres_trans h1.1 h2.1, h2.2.1.trans h1.2.1,
   h2.2.2.1.trans h1.2.2.1, h2.2.2.2.1.trans h1.2.2.2.1,
   h2.2.2.2.2.1.trans h1.2.2.2.2.1, h2.2.2.2.2.2.trans h1.2.2.2.2.2⟩

/-- Writing the value of a formula-carrying cell is shape-preserving. -/
theorem shapePres_setValue_cell {m : List (Addr × Node)} {a : Addr} {c : Cell} {e : Expr}
    (hl : mapLookup m a = some (.cell c)) (hf : c.formula = some e) (v : PyVal) :
    shapePres m (mapSetValue m a v) := by
  intro b
  rw [mapLookup_setValue]
  by_cases hab : a = b
  · subst hab
    simp [hl, Node.setValue, nodeShape, hf]
  · simp [hab]
    exact (shapePres_refl m) b

/-- Writing the value of a range node is shape-preserving. -/
theorem shapePres_setValue_range {m : List (Addr × Node)} {a : Addr} {r : CellRange}
    (hl : mapLookup m a = some (.range r)) (v : PyVal) :
    shapePres m (mapSetValue m a v) := by
  intro b
  rw [mapLookup_setValue]
  by_cases hab : a = b
  · subst hab
    simp [hl, Node.setValue, nodeShape]
  · simp [hab]
    exact (shapePres_refl m) b

/-- The frame property required of the single-cell lookup a formula
body is run against. -/
def evPresOK (ev : ExcelCompiler → Addr → Option EvalRes) : Prop :=
  ∀ st a r, ev st a = some r → evalPres st r.1

theorem evalExprWith_pres {ev : ExcelCompiler → Addr → Option EvalRes}
    (hev : evPresOK ev) :
    ∀ (e : Expr) (st : ExcelCompiler) (r : EvalRes),
      evalExprWith ev st e = some r → evalPres st r.1 := by
  intro e
  induction e with
  | lit v =>
    intro st r h
    simp only [evalExprWith, Option.some.injEq] at h
    rw [← h]
    exact evalPres_refl st
  | cellRef a =>
    intro st r h
    exact hev st a r h
  | add e1 e2 ih1 ih2 =>
    intro st r h
    simp only [evalExprWith] at h
    split at h
    · exact Option.noConfusion h
    rename_i st1 v1 t1 he1
    split at h
    · exact Option.noConfusion h
    rename_i st2 v2 t2 he2
    simp only [Option.some.injEq] at h
    rw [← h]
    exact evalPres_trans (ih1 st (st1, v1, t1) he1) (ih2 st1 (st2, v2, t2) he2)
  | mul e1 e2 ih1 ih2 =>
    intro st r h
    simp only [evalExprWith] at h
    split at h
    · exact Option.noConfusion h
    rename_i st1 v1 t1 he1
    split at h
    · exact Option.noConfusion h
    rename_i st2 v2 t2 he2
    simp only [Option.some.injEq] at h
    rw [← h]
    exact evalPres_trans (ih1 st (st1, v1, t1) he1) (ih2 st1 (st2, v2, t2) he2)

theorem evalRowWith_pres {ev : ExcelCompiler → Addr → Option EvalRes}
    (hev : evPresOK ev) :
    ∀ (l : List Addr) (st : ExcelCompiler) r,
      evalRowWith ev st l = some r → evalPres st r.1 := by
  intro l
  induction l with
  | nil =>
    intro st r h
    simp only [evalRowWith, Option.some.injEq] at h
    rw [← h]
    exact evalPres_refl st
  | cons a rest ih =>
    intro st r h
    simp only [evalRowWith] at h
    split at h
    · exact Option.noConfusion h
    rename_i st1 v t1 he1
    split at h
    · exact Option.noConfusion h
    rename_i st2 vs t2 he2
    simp only [Option.some.injEq] at h
    rw [← h]
    exact evalPres_trans (hev st a (st1, v, t1) he1) (ih st1 (st2, vs, t2) he2)

theorem evalRowsWith_pres {ev : ExcelCompiler → Addr → Option EvalRes}
    (hev : evPresOK ev) :
    ∀ (rows : List (List Addr)) (st : ExcelCompiler) r,
      evalRowsWith ev st rows = some r → evalPres st r.1 := by
  intro rows
  induction rows with
  | nil =>
    intro st r h
    simp only [evalRowsWith, Option.some.injEq] at h
    rw [← h]
    exact evalPres_refl st
  | cons row rest ih =>
    intro st r h
    simp only [evalRowsWith] at h
    split at h
    · exact Option.noConfusion h
    rename_i st1 vs t1 he1
    split at h
    · exact Option.noConfusion h
    rename_i st2 rs t2 he2
    simp only [Option.some.injEq] at h
    rw [← h]
    exact evalPres_trans (evalRowWith_pres hev row st (st1, vs, t1) he1)
      (ih st1 (st2, rs, t2) he2)

/-- The compute phase preserves shape: the only write targets a cell
whose formula is present. -/
theorem computeStep_pres {evc evr : ExcelCompiler → Addr → Option EvalRes}
    (hevc : evPresOK evc) (hevr : evPresOK evr)
    {st : ExcelCompiler} {addr : Addr} {node : Node}
    (hL : mapLookup st.cell_map addr = some node)
    {st1 : ExcelCompiler} {tr1 : List Addr}
    (h : computeStep evc evr st addr node = some (st1, tr1)) :
    evalPres st st1 := by
  by_cases hv : node.value = none
  · simp only [computeStep, if_pos hv] at h
    cases node with
    | range rg =>
      simp only [] at h
      cases hr : evr st addr with
      | none => rw [hr] at h; exact Option.noConfusion h
      | some res =>
        obtain ⟨stx, vx, trx⟩ := res
        rw [hr] at h
        simp only [Option.some.injEq, Prod.mk.injEq] at h
        rw [← h.1]
        exact hevr st addr (stx, vx, trx) hr
    | cell c =>
      simp only [] at h
      cases hf : c.formula with
      | none =>
        rw [hf] at h
        simp only [Option.some.injEq, Prod.mk.injEq] at h
        rw [← h.1]
        exact evalPres_refl st
      | some e =>
        rw [hf] at h
        simp only [] at h
        cases hx : evalExprWith evc st e with
        | none => rw [hx] at h; exact Option.noConfusion h
        | some resx =>
          obtain ⟨stx, vx, trx⟩ := resx
          rw [hx] at h
          simp only [Option.some.injEq, Prod.mk.injEq] at h
          have hx1 : evalPres st stx := evalExprWith_pres hevc e st (stx, vx, trx) hx
          have hc' : ∃ c', mapLookup stx.cell_map addr = some (.cell c') ∧
              c'.formula = some e := by
            have hs := hx1.1 addr
            rw [hL] at hs
            cases hlx : mapLookup stx.cell_map addr with
            | none => rw [hlx] at hs; exact hs.elim
            | some n' =>
              rw [hlx] at hs
              cases n' with
              | cell c' =>
                refine ⟨c', rfl, ?_⟩
                have hs1 : c'.formula = c.formula := hs.1
                rw [hs1, hf]
              | range r' => exact hs.elim
          obtain ⟨c', hlx, hf'⟩ := hc'
          have hw' : evalPres stx
              (stSetValue stx addr (if list_like vx then some VALUE_ERROR else vx)) :=
            ⟨shapePres_setValue_cell hlx hf' _, rfl, rfl, rfl, rfl, rfl⟩
          rw [← h.1]
          exact evalPres_trans hx1 hw'
  · simp only [computeStep, if_neg hv, Option.some.injEq, Prod.mk.injEq] at h
    rw [← h.1]
    exact evalPres_refl st

/-- The dereference phase preserves shape. -/
theorem derefStep_pres {evc : ExcelCompiler → Addr → Option EvalRes}
    (hevc : evPresOK evc)
    {st st1 : ExcelCompiler} {tr1 : List Addr} {addr : Addr} {r : EvalRes}
    (hp : evalPres st st1) (h : derefStep evc st1 tr1 addr = some r) :
    evalPres st r.1 := by
  simp only [derefStep] at h
  cases hL1 : mapLookup st1.cell_map addr with
  | none => rw [hL1] at h; exact Option.noConfusion h
  | some node1 =>
    rw [hL1] at h
    simp only [] at h
    split at h
    · -- a reference: recurse
      rename_i rr href
      cases h2 : evc st1 rr with
      | none => rw [h2] at h; exact Option.noConfusion h
      | some res2 =>
        obtain ⟨st2, v2, tr2⟩ := res2
        rw [h2] at h
        simp only [Option.some.injEq] at h
        rw [← h]
        exact evalPres_trans hp (hevc st1 rr (st2, v2, tr2) h2)
    · -- a plain value
      simp only [Option.some.injEq] at h
      rw [← h]
      exact hp

/-- `_evaluate_range` preserves shape. -/
theorem rangeStep_pres {evc : ExcelCompiler → Addr → Option EvalRes}
    (hevc : evPresOK evc)
    {st : ExcelCompiler} {addr : Addr} {node : Node}
    (hL : mapLookup st.cell_map addr = some node) {r : EvalRes}
    (h : rangeStep evc st addr node = some r) :
    evalPres st r.1 := by
  by_cases hv : node.value = none
  · simp only [rangeStep, if_pos hv] at h
    cases node with
    | cell c =>
      simp only [] at h
      exact Option.noConfusion h
    | range rg =>
      simp only [] at h
      cases hrows : evalRowsWith evc st rg.addresses with
      | none => rw [hrows] at h; exact Option.noConfusion h
      | some resr =>
        obtain ⟨st1, rows, tr⟩ := resr
        rw [hrows] at h
        simp only [Option.some.injEq] at h
        have h1 : evalPres st st1 :=
          evalRowsWith_pres hevc rg.addresses st (st1, rows, tr) hrows
        have hlx : ∃ r', mapLookup st1.cell_map addr = some (.range r') := by
          have hs := h1.1 addr
          rw [hL] at hs
          cases hlx : mapLookup st1.cell_map addr with
          | none => rw [hlx] at hs; exact hs.elim
          | some n' =>
            rw [hlx] at hs
            cases n' with
            | cell c' => exact hs.elim
            | range r' => exact ⟨r', rfl⟩
        obtain ⟨r', hlx⟩ := hlx
        have hw : evalPres st1 (stSetValue st1 addr
            (some (.vlist (VList.ofList rows)))) :=
          ⟨shapePres_setValue_range hlx _, rfl, rfl, rfl, rfl, rfl⟩
        rw [← h]
        exact evalPres_trans h1 hw
  · simp only [rangeStep, if_neg hv, Option.some.injEq] at h
    rw [← h]
    exact evalPres_refl st

/-- The evaluator's frame property: a successful `_evaluate` or
`_evaluate_range` call only fills cached-value slots — it never adds or
removes nodes, never changes a formula or a range's member matrix, never
writes a formula-less cell, and leaves the graph, the pending queues and
the serialization metadata untouched. -/
theorem evalNode_pres :
    ∀ (f : Nat) (k : EKind) (st : ExcelCompiler) (a : Addr) (r : EvalRes),
      evalNode f k st a = some r → evalPres st r.1 := by
  intro f
  induction f with
  | zero =>
    intro k st a r h
    simp [evalNode] at h
  | succ f ih =>
    have ihc : evPresOK (evalNode f .cell) := fun st a r h => ih .cell st a r h
    have ihr : evPresOK (evalNode f .range) := fun st a r h => ih .range st a r h
    intro k st a r h
    cases k with
    | cell =>
      simp only [evalNode] at h
      cases hL : mapLookup st.cell_map a with
      | none => rw [hL] at h; exact Option.noConfusion h
      | some node =>
        rw [hL] at h
        simp only [] at h
        cases hc : computeStep (evalNode f .cell) (evalNode f .range) st a node with
        | none => rw [hc] at h; exact Option.noConfusion h
        | some res1 =>
          obtain ⟨st1, tr1⟩ := res1
          rw [hc] at h
          simp only [] at h
          exact derefStep_pres ihc (computeStep_pres ihc ihr hL hc) h
    | range =>
      simp only [evalNode] at h
      cases hL : mapLookup st.cell_map a with
      | none => rw [hL] at h; exact Option.noConfusion h
      | some node =>
        rw [hL] at h
        simp only [] at h
        exact rangeStep_pres ihc hL h

/-- A formula-less cell is untouched by any shape-preserving step. -/
theorem evalPres_formulaless {st st' : ExcelCompiler} (h : evalPres st st')
    {a : Addr} {c : Cell} (hl : mapLookup st.cell_map a = some (.cell c))
    (hf : c.formula = none) : mapLookup st'.cell_map a = some (.cell c) := by
  have hs := h.1 a
  rw [hl] at hs
  cases hl' : mapLookup st'.cell_map a with
  | none => rw [hl'] at hs; exact hs.elim
  | some n' =>
    rw [hl'] at hs
    cases n' with
    | range r' => exact hs.elim
    | cell c' =>
      have h1 : c'.formula = c.formula := hs.1
      have h2 : c'.value = c.value := hs.2 hf
      have hc : c' = c := by
        obtain ⟨v', f'⟩ := c'
        obtain ⟨v, f⟩ := c
        simp only [] at h1 h2
        rw [h1, h2]
      rw [hc]

theorem mapLookup_mapNode (g : Node → Node) (m : List (Addr × Node)) (a : Addr) :
    mapLookup (m.map fun p => (p.1, g p.2)) a = (mapLookup m a).map g := by
  induction m with
  | nil => rfl
  | cons p m ih => by_cases h : p.1 = a <;> simp [mapLookup_cons, h, ih]

theorem mapLookup_recalcClear (st : ExcelCompiler) (a : Addr) :
    mapLookup (recalcClear st).cell_map a =
      (mapLookup st.cell_map a).map recalcClearNode := by
  simp [recalcClear, mapLookup_mapNode]

/-- The evaluation pass of `recalculate` never touches a formula-less
cell. -/
theorem recalcEvalAll_formulaless (fuel : Nat) :
    ∀ (l : List Addr) (st st' : ExcelCompiler), recalcEvalAll fuel st l = some st' →
      ∀ (a : Addr) (c : Cell), mapLookup st.cell_map a = some (.cell c) →
        c.formula = none → mapLookup st'.cell_map a = some (.cell c) := by
  intro l
  induction l with
  | nil =>
    intro st st' h a c hl hf
    simp only [recalcEvalAll, Option.some.injEq] at h
    rw [← h]
    exact hl
  | cons a0 rest ih =>
    intro st st' h a c hl hf
    simp only [recalcEvalAll] at h
    cases hL0 : mapLookup st.cell_map a0 with
    | none => rw [hL0] at h; exact Option.noConfusion h
    | some node0 =>
      rw [hL0] at h
      simp only [] at h
      cases node0 with
      | range r0 =>
        simp only [] at h
        cases hr : _evaluate_range fuel st a0 with
        | none => rw [hr] at h; exact Option.noConfusion h
        | some res =>
          obtain ⟨st1, v1, t1⟩ := res
          rw [hr] at h
          simp only [] at h
          have hp : evalPres st st1 := evalNode_pres fuel .range st a0 (st1, v1, t1) hr
          exact ih st1 st' h a c (evalPres_formulaless hp hl hf) hf
      | cell c0 =>
        simp only [] at h
        cases hr : _evaluate fuel st a0 with
        | none => rw [hr] at h; exact Option.noConfusion h
        | some res =>
          obtain ⟨st1, v1, t1⟩ := res
          rw [hr] at h
          simp only [] at h
          have hp : evalPres st st1 := evalNode_pres fuel .cell st a0 (st1, v1, t1) hr
          exact ih st1 st' h a c (evalPres_formulaless hp hl hf) hf

/-!
## Claim theorems

Concrete example states used by witnesses appear next to the theorems
they serve.
-/

/-- A data source modelling an empty sheet (every cell reads back empty,
exactly as the live wrapper and the replay importer report a cell with
no stored record). -/
def dummySrc : DataSource := ⟨fun _ => { formula := none, value := none }⟩

/-- C8: `recalculate` clears the cached value of exactly the cells that
carry a formula (and of every range node), and the value of every
formula-less cell — a pure input — is never touched, neither by the
clearing pass nor by the re-evaluation pass. -/
theorem recalculate_clears_only_formula_cells (st : ExcelCompiler) :
    (∀ (a : Addr) (c : Cell), mapLookup st.cell_map a = some (.cell c) →
        c.formula = none → mapLookup (recalcClear st).cell_map a = some (.cell c)) ∧
    (∀ (a : Addr) (c : Cell), mapLookup st.cell_map a = some (.cell c) →
        c.formula.isSome → mapLookup (recalcClear st).cell_map a =
          some (.cell { c with value := none })) ∧
    (∀ (a : Addr) (r : CellRange), mapLookup st.cell_map a = some (.range r) →
        mapLookup (recalcClear st).cell_map a = some (.range { r with value := none })) ∧
    (∀ (fuel : Nat) (st' : ExcelCompiler) (a : Addr) (c : Cell),
        recalculate fuel st = some st' →
        mapLookup st.cell_map a = some (.cell c) → c.formula = none →
        mapLookup st'.cell_map a = some (.cell c)) := by
  have hclear_none : ∀ c : Cell, c.formula = none →
      recalcClearNode (.cell c) = .cell c := by
    intro c hf
    simp [recalcClearNode, hf]
  have hclear_some : ∀ c : Cell, c.formula.isSome →
      recalcClearNode (.cell c) = .cell { c with value := none } := by
    intro c hf
    simp [recalcClearNode, hf]
  refine ⟨?_, ?_, ?_, ?_⟩
  · intro a c hl hf
    rw [mapLookup_recalcClear, hl, Option.map_some', hclear_none c hf]
  · intro a c hl hf
    rw [mapLookup_recalcClear, hl, Option.map_some', hclear_some c hf]
  · intro a r hl
    rw [mapLookup_recalcClear, hl]
    rfl
  · intro fuel st' a c h hl hf
    have hl1 : mapLookup (recalcClear st).cell_map a = some (.cell c) := by
      rw [mapLookup_recalcClear, hl, Option.map_some', hclear_none c hf]
    exact recalcEvalAll_formulaless fuel _ (recalcClear st) st' h a c hl1 hf

/-- Witness state for C8: a pure input `A1` and a formula cell `B1`
with its value cached. -/
def w8A : Cell := { value := some (.num 2), formula := none }

/-- Witness formula cell for C8. -/
def w8B : Cell :=
  { value := some (.num 6), formula := some (.mul (.cellRef "A1") (.lit (.num 3))) }

/-- Witness compiler state for C8. -/
def w8St : ExcelCompiler :=
  { cell_map := [("A1", .cell w8A), ("B1", .cell w8B)]
    dep_graph := ⟨["A1", "B1"], [("A1", "B1")]⟩
    graph_todos := []
    range_todos := []
    excel_hash := none
    extra_data := [] }

theorem recalculate_clears_only_formula_cells_witness :
    mapLookup w8St.cell_map "A1" = some (.cell w8A) ∧
    w8A.formula = none ∧
    recalculate 2 w8St = some w8St ∧
    mapLookup (recalcClear w8St).cell_map "A1" = some (.cell w8A) ∧
    mapLookup (recalcClear w8St).cell_map "B1" =
      some (.cell { w8B with value := none }) ∧
    mapLookup w8St.cell_map "A1" = some (.cell w8A) :=
  ⟨rfl, rfl, by decide,
   (recalculate_clears_only_formula_cells w8St).1 "A1" w8A (by decide) (by decide),
   (recalculate_clears_only_formula_cells w8St).2.1 "B1" w8B (by decide) (by decide),
   (recalculate_clears_only_formula_cells w8St).2.2.2 2 w8St "A1" w8A (by decide)
     (by decide) (by decide)⟩

/-- C5: building the graph for a seed whose node already exists is a
no-op — `_gen_graph` returns immediately and the state (address map,
graph nodes and edges, queues) is unchanged. -/
theorem gen_graph_existing_seed_noop (src : DataSource) (fuel : Nat)
    (st : ExcelCompiler) (seed : Addr)
    (h : (mapLookup st.cell_map seed).isSome = true) :
    _gen_graph src fuel st seed = some st := by
  simp [_gen_graph, h]

theorem gen_graph_existing_seed_noop_witness :
    (mapLookup w8St.cell_map "A1").isSome = true ∧
    _gen_graph dummySrc 0 w8St "A1" = some w8St :=
  ⟨by decide, gen_graph_existing_seed_noop dummySrc 0 w8St "A1" (by decide)⟩

/-- C7: a formula whose evaluation yields a non-scalar (list-like)
value in a single-cell context caches the `VALUE_ERROR` sentinel — not
the sequence — as the cell's value, and returns the sentinel. -/
theorem evaluate_nonscalar_cached_as_value_error
    (f : Nat) (st : ExcelCompiler) (addr : Addr) (c : Cell) (e : Expr)
    (stx : ExcelCompiler) (vs : VList) (trx : List Addr)
    (hL : mapLookup st.cell_map addr = some (.cell c))
    (hv : c.value = none) (hf : c.formula = some e)
    (hx : evalExprWith (evalNode f .cell) st e = some (stx, some (.vlist vs), trx)) :
    _evaluate (f + 1) st addr =
      some (stSetValue stx addr (some VALUE_ERROR), some VALUE_ERROR, addr :: trx) ∧
    ∃ c', mapLookup (stSetValue stx addr (some VALUE_ERROR)).cell_map addr =
        some (.cell c') ∧ c'.value = some VALUE_ERROR := by
  have hevc : evPresOK (evalNode f .cell) := fun st a r h => evalNode_pres f .cell st a r h
  have hx1 : evalPres st stx := evalExprWith_pres hevc e st (stx, some (.vlist vs), trx) hx
  -- the written cell still exists with its formula after the body ran
  have hcx : ∃ c', mapLookup stx.cell_map addr = some (.cell c') := by
    have hs := hx1.1 addr
    rw [hL] at hs
    cases hlx : mapLookup stx.cell_map addr with
    | none => rw [hlx] at hs; exact hs.elim
    | some n' =>
      rw [hlx] at hs
      cases n' with
      | cell c' => exact ⟨c', rfl⟩
      | range r' => exact hs.elim
  obtain ⟨c', hlx⟩ := hcx
  have hlex : mapLookup (stSetValue stx addr (some VALUE_ERROR)).cell_map addr =
      some (.cell { c' with value := some VALUE_ERROR }) := by
    rw [stSetValue_cell_map, mapLookup_setValue_self, hlx]
    rfl
  have hcs : computeStep (evalNode f .cell) (evalNode f .range) st addr (.cell c) =
      some (stSetValue stx addr (some VALUE_ERROR), addr :: trx) := by
    simp only [computeStep, Node.value, hv, if_true]
    simp only [hf, hx, list_like]
    rfl
  have hds : derefStep (evalNode f .cell) (stSetValue stx addr (some VALUE_ERROR))
      (addr :: trx) addr =
      some (stSetValue stx addr (some VALUE_ERROR), some VALUE_ERROR, addr :: trx) := by
    simp only [derefStep, hlex]
    rfl
  refine ⟨?_, ⟨{ c' with value := some VALUE_ERROR }, hlex, rfl⟩⟩
  simp only [_evaluate, evalNode, hL]
  simp only [hcs]
  exact hds

/-- Witness cell for C7: its formula is a literal list. -/
def w7c : Cell :=
  { value := none, formula := some (.lit (.vlist (.consSome (.num 1) .nil))) }

/-- Witness state for C7. -/
def w7St : ExcelCompiler :=
  { cell_map := [("A1", .cell w7c)]
    dep_graph := ⟨[], []⟩
    graph_todos := []
    range_todos := []
    excel_hash := none
    extra_data := [] }

theorem evaluate_nonscalar_cached_as_value_error_witness :
    mapLookup w7St.cell_map "A1" = some (.cell w7c) ∧
    w7c.value = none ∧
    _evaluate 1 w7St "A1" =
      some (stSetValue w7St "A1" (some VALUE_ERROR), some VALUE_ERROR, ["A1"]) :=
  ⟨rfl, rfl,
    (evaluate_nonscalar_cached_as_value_error 0 w7St "A1" w7c
      (.lit (.vlist (.consSome (.num 1) .nil))) w7St (.consSome (.num 1) .nil) []
      rfl rfl rfl rfl).1⟩

/-- C2: on a fully cached chain `A → B → C`, `set_value A w` with `w`
different from `A`'s cached value clears the cached values of `B` and
`C` (the reset cascades depth-first through the graph successors) and
then writes `w` onto `A`; `set_value A` with `A`'s current cached value
leaves the whole state unchanged. -/
theorem set_value_cascade_resets_chain
    (fuel : Nat) (st : ExcelCompiler) (A B C : Addr) (nA nB nC : Node)
    (va vb vc : Value) (w : PyVal)
    (hfuel : 6 ≤ fuel)
    (hA : mapLookup st.cell_map A = some nA) (hvA : nA.value = some va)
    (hB : mapLookup st.cell_map B = some nB) (hvB : nB.value = some vb)
    (hC : mapLookup st.cell_map C = some nC) (hvC : nC.value = some vc)
    (hAB : A ≠ B) (hAC : A ≠ C) (hBC : B ≠ C)
    (hsA : st.dep_graph.successors A = [B])
    (hsB : st.dep_graph.successors B = [C])
    (hsC : st.dep_graph.successors C = [])
    (hgA : st.dep_graph.hasNode A = true)
    (hgB : st.dep_graph.hasNode B = true)
    (hgC : st.dep_graph.hasNode C = true)
    (hw : w ≠ some va) :
    (set_value fuel st A w =
      some (stSetValue (stSetValue (stSetValue (stSetValue st A none) B none) C none)
        A w)) ∧
    (mapLookup (stSetValue (stSetValue (stSetValue (stSetValue st A none) B none) C none)
        A w).cell_map A = some (nA.setValue w)) ∧
    (mapLookup (stSetValue (stSetValue (stSetValue (stSetValue st A none) B none) C none)
        A w).cell_map B = some (nB.setValue none)) ∧
    (mapLookup (stSetValue (stSetValue (stSetValue (stSetValue st A none) B none) C none)
        A w).cell_map C = some (nC.setValue none)) ∧
    (∀ fuel' : Nat, set_value fuel' st A (some va) = some st) := by
  have hBA : B ≠ A := fun h => hAB h.symm
  have hCA : C ≠ A := fun h => hAC h.symm
  have hCB : C ≠ B := fun h => hBC h.symm
  obtain ⟨g, rfl⟩ : ∃ g, fuel = g + 1 + 1 + 1 + 1 + 1 + 1 := ⟨fuel - 6, by omega⟩
  -- lookups in the intermediate states
  have lB1 : mapLookup (mapSetValue st.cell_map A none) B = some nB := by
    rw [mapLookup_setValue_ne _ _ _ _ hAB, hB]
  have lC2 : mapLookup (mapSetValue (mapSetValue st.cell_map A none) B none) C =
      some nC := by
    rw [mapLookup_setValue_ne _ _ _ _ hBC, mapLookup_setValue_ne _ _ _ _ hAC, hC]
  have lA3 : mapLookup (stSetValue (stSetValue (stSetValue (stSetValue st A none) B none)
      C none) A w).cell_map A = some (nA.setValue w) := by
    simp [mapLookup_setValue, hCA, hBA, hA]
  have lB3 : mapLookup (stSetValue (stSetValue (stSetValue (stSetValue st A none) B none)
      C none) A w).cell_map B = some (nB.setValue none) := by
    simp [mapLookup_setValue, hAB, hCB, hB]
  have lC3 : mapLookup (stSetValue (stSetValue (stSetValue (stSetValue st A none) B none)
      C none) A w).cell_map C = some (nC.setValue none) := by
    simp [mapLookup_setValue, hAC, hBC, hC]
  -- the whole cascade unfolds by fuel
  have hRA : resetGo (g + 1 + 1 + 1 + 1 + 1 + 1) st (.inl A) =
      some (stSetValue (stSetValue (stSetValue st A none) B none) C none) := by
    simp [resetGo, hA, hvA, hgA, hsA, lB1, hvB, hgB, hsB, lC2, hvC, hgC, hsC]
  have hvaw : ¬ (nA.value = w) := by
    rw [hvA]; exact fun h => hw h.symm
  have hvan : ¬ (nA.value = none) := by
    rw [hvA]; exact fun h => Option.noConfusion h
  refine ⟨?_, lA3, lB3, lC3, ?_⟩
  · simp only [set_value, hA]
    simp [hvaw, hvan, _reset, hRA]
  · intro fuel'
    simp [set_value, hA, hvA]

/-- Witness input cell for C2: `A1 = 2`, a cached literal. -/
def w2A : Cell := { value := some (.num 2), formula := none }

/-- Witness chain cell for C2: `B1 = A1 * 3`, cached. -/
def w2B : Cell :=
  { value := some (.num 6), formula := some (.mul (.cellRef "A1") (.lit (.num 3))) }

/-- Witness chain cell for C2: `C1 = B1 + 1`, cached. -/
def w2C : Cell :=
  { value := some (.num 7), formula := some (.add (.cellRef "B1") (.lit (.num 1))) }

/-- Witness compiler state for C2: the fully cached chain
`A1 → B1 → C1`. -/
def w2St : ExcelCompiler :=
  { cell_map := [("A1", .cell w2A), ("B1", .cell w2B), ("C1", .cell w2C)]
    dep_graph := ⟨["A1", "B1", "C1"], [("A1", "B1"), ("B1", "C1")]⟩
    graph_todos := []
    range_todos := []
    excel_hash := none
    extra_data := [] }

theorem set_value_cascade_resets_chain_witness :
    mapLookup w2St.cell_map "A1" = some (.cell w2A) ∧
    w2St.dep_graph.successors "A1" = ["B1"] ∧
    (mapLookup (stSetValue (stSetValue (stSetValue (stSetValue w2St "A1" none) "B1" none)
        "C1" none) "A1" (some (.num 5))).cell_map "B1" =
      some ((Node.cell w2B).setValue none)) ∧
    (mapLookup (stSetValue (stSetValue (stSetValue (stSetValue w2St "A1" none) "B1" none)
        "C1" none) "A1" (some (.num 5))).cell_map "C1" =
      some ((Node.cell w2C).setValue none)) ∧
    (set_value 8 w2St "A1" (some (.num 5)) =
      some (stSetValue (stSetValue (stSetValue (stSetValue w2St "A1" none) "B1" none)
        "C1" none) "A1" (some (.num 5)))) ∧
    (∀ fuel' : Nat, set_value fuel' w2St "A1" (some (.num 2)) = some w2St) := by
  have h := set_value_cascade_resets_chain 8 w2St "A1" "B1" "C1"
    (.cell w2A) (.cell w2B) (.cell w2C) (.num 2) (.num 6) (.num 7) (some (.num 5))
    (by decide) (by decide) (by decide) (by decide) (by decide) (by decide) (by decide)
    (by decide) (by decide) (by decide) (by decide) (by decide) (by decide)
    (by decide) (by decide) (by decide) (by decide)
  exact ⟨by decide, by decide, h.2.2.1, h.2.2.2.1, h.1, h.2.2.2.2⟩

theorem setRangeTodos_self (st : ExcelCompiler) (h : st.range_todos = []) :
    { st with range_todos := ([] : List Addr) } = st := by
  rw [← h]

/-- Draining an empty pending queue is a no-op. -/
theorem process_gen_graph_noop (src : DataSource) (g : Nat) (st : ExcelCompiler)
    (ht : st.graph_todos = []) (hr : st.range_todos = []) :
    _process_gen_graph src (g + 1) st = some st := by
  simp only [_process_gen_graph, ht, hr]
  simp [evalRangeTodos, setRangeTodos_self st hr]

theorem genGraphSeedLoop_noop (src : DataSource) :
    ∀ (seeds : List Addr) (st : ExcelCompiler),
      (∀ s ∈ seeds, (mapLookup st.cell_map s).isSome = true) →
      genGraphSeedLoop src st seeds = some st := by
  intro seeds
  induction seeds with
  | nil => intro st _; rfl
  | cons s rest ih =>
    intro st h
    have hs : (mapLookup st.cell_map s).isSome = true := h s (by simp)
    simp only [genGraphSeedLoop, hs, if_true]
    exact ih st fun x hx => h x (by simp [hx])

/-- Building the graph for seeds that all already have nodes, with no
pending work, is a no-op. -/
theorem genGraphSeeds_noop (src : DataSource) (g : Nat) (st : ExcelCompiler)
    (seeds : List Addr)
    (hseeds : ∀ s ∈ seeds, (mapLookup st.cell_map s).isSome = true)
    (ht : st.graph_todos = []) (hr : st.range_todos = []) :
    genGraphSeeds src (g + 1) st seeds = some st := by
  simp only [genGraphSeeds, genGraphSeedLoop_noop src seeds st hseeds]
  exact process_gen_graph_noop src g st ht hr

theorem trimFinish_dep_graph (fuel : Nat) (st1 : ExcelCompiler) (needed : List Addr)
    (outputs : List Addr) (st' : ExcelCompiler)
    (h : trimFinish fuel st1 needed outputs = some (.ok st')) :
    st'.dep_graph = st1.dep_graph := by
  simp only [trimFinish] at h
  cases h3 : trimStep3 fuel st1.cell_map (listUnion needed outputs) [] outputs with
  | none => rw [h3] at h; exact Option.noConfusion h
  | some p =>
    obtain ⟨m1, needed2⟩ := p
    rw [h3] at h
    simp only [Option.some.injEq, TrimOutcome.ok.injEq] at h
    rw [← h]

/-- C10: `trim_graph` deletes unneeded cells only from the address map;
the dependency graph object keeps all of its nodes and edges, including
those of the deleted cells. -/
theorem trim_graph_preserves_dep_graph (src : DataSource) (fuel : Nat)
    (st st' : ExcelCompiler) (inputs outputs : List Addr)
    (hfuel : 1 ≤ fuel)
    (houts : ∀ o ∈ outputs, (mapLookup st.cell_map o).isSome = true)
    (ht : st.graph_todos = []) (hr : st.range_todos = [])
    (h : trim_graph src fuel st inputs outputs = some (.ok st')) :
    st'.dep_graph = st.dep_graph := by
  obtain ⟨g, rfl⟩ : ∃ g, fuel = g + 1 := ⟨fuel - 1, by omega⟩
  have h1 : genGraphSeeds src (g + 1) st outputs = some st :=
    genGraphSeeds_noop src g st outputs houts ht hr
  simp only [trim_graph, h1] at h
  cases h2 : trimStep2 (g + 1) st.dep_graph st.cell_map inputs [] with
  | none => rw [h2] at h; exact Option.noConfusion h
  | some p =>
    obtain ⟨needed, exc⟩ := p
    rw [h2] at h
    simp only [] at h
    cases exc with
    | none => exact trimFinish_dep_graph _ _ _ _ _ h
    | some a =>
      simp only [] at h
      by_cases hmem : a ∈ outputs
      · rw [if_pos hmem] at h
        exact trimFinish_dep_graph _ _ _ _ _ h
      · rw [if_neg hmem] at h
        simp only [Option.some.injEq] at h
        exact absurd h (by simp)

theorem trim_graph_preserves_dep_graph_witness :
    trim_graph dummySrc 32 w2St ["A1"] ["C1"] = some (.ok w2St) ∧
    w2St.dep_graph = w2St.dep_graph := by
  constructor
  · decide
  · exact trim_graph_preserves_dep_graph dummySrc 32 w2St w2St ["A1"] ["C1"]
      (by decide) (by decide) (by decide) (by decide) (by decide)

/-- C6 (amended): an input address that has a node in the map but no
node in the dependency graph makes `successors` raise `NetworkXError`;
`trim_graph` turns that into a hard `ValueError` exactly when the
address is *not* among the outputs. -/
theorem trim_input_without_graph_node_value_error (src : DataSource) (fuel : Nat)
    (st : ExcelCompiler) (a : Addr) (rest outputs : List Addr)
    (hfuel : 1 ≤ fuel)
    (houts : ∀ o ∈ outputs, (mapLookup st.cell_map o).isSome = true)
    (ht : st.graph_todos = []) (hr : st.range_todos = [])
    (hin : (mapLookup st.cell_map a).isSome = true)
    (hnog : st.dep_graph.hasNode a = false)
    (hnout : a ∉ outputs) :
    trim_graph src fuel st (a :: rest) outputs = some (.valueError a) := by
  obtain ⟨g, rfl⟩ : ∃ g, fuel = g + 1 := ⟨fuel - 1, by omega⟩
  have h1 : genGraphSeeds src (g + 1) st outputs = some st :=
    genGraphSeeds_noop src g st outputs houts ht hr
  have h2 : trimStep2 (g + 1) st.dep_graph st.cell_map (a :: rest) [] =
      some ([], some a) := by
    simp [trimStep2, hin, hnog]
  simp only [trim_graph, h1, h2]
  simp [hnout]

/-!
## Acyclicity (ranked graphs) and the memoization contract

The spec treats cyclic formula references as undefined behaviour
("well-formed spreadsheets produce a DAG; the engine does not
special-case cycles").  A state is *ranked* when some rank function
decreases from every node to each of its formula precedents, stored
reference values and range members — this is exactly acyclicity of the
precedent relation. -/

/-- A stored value is rank-bounded when, if it is a reference, the
referenced address has smaller rank. -/
def valueRankOK (rank : Addr → Nat) (r : Nat) : PyVal → Bool
  | some (.ref b) => decide (rank b < r)
  | _ => true

/-- A formula is rank-bounded when every cell reference (and every
literal reference value) it contains points below `r`. -/
def exprRankOK (rank : Addr → Nat) (r : Nat) : Expr → Bool
  | .lit v => valueRankOK rank r (some v)
  | .cellRef a => decide (rank a < r)
  | .add e1 e2 => exprRankOK rank r e1 && exprRankOK rank r e2
  | .mul e1 e2 => exprRankOK rank r e1 && exprRankOK rank r e2

/-- A node is rank-bounded: its stored value, its formula and (for a
range) its member addresses all point strictly below its own rank. -/
def nodeRankOK (rank : Addr → Nat) (a : Addr) : Node → Bool
  | .cell c =>
    valueRankOK rank (rank a) c.value &&
    (match c.formula with
     | some e => exprRankOK rank (rank a) e
     | none => true)
  | .range rg =>
    valueRankOK rank (rank a) rg.value &&
    rg.addresses.all fun row => row.all fun m => decide (rank m < rank a)

/-- An acyclic (ranked) compiler state. -/
def rankedState (rank : Addr → Nat) (st : ExcelCompiler) : Bool :=
  st.cell_map.all fun p => nodeRankOK rank p.1 p.2

theorem rankedState_lookup {rank : Addr → Nat} {st : ExcelCompiler} {a : Addr} {n : Node}
    (h : rankedState rank st = true) (hl : mapLookup st.cell_map a = some n) :
    nodeRankOK rank a n = true := by
  unfold mapLookup at hl
  cases hf : st.cell_map.find? (fun p => p.1 = a) with
  | none => rw [hf] at hl; exact Option.noConfusion hl
  | some p =>
    rw [hf] at hl
    simp only [Option.map_some', Option.some.injEq] at hl
    have hmem : p ∈ st.cell_map := List.mem_of_find?_eq_some hf
    have hkey : p.1 = a := by
      have hp := List.find?_some hf
      simpa using hp
    unfold rankedState at h
    have hall := (List.all_eq_true.mp h) p hmem
    rw [← hl, ← hkey]
    exact hall

theorem rankedState_setValue {rank : Addr → Nat} {st : ExcelCompiler} {a : Addr}
    {v : PyVal} (h : rankedState rank st = true)
    (hv : valueRankOK rank (rank a) v = true) :
    rankedState rank (stSetValue st a v) = true := by
  unfold rankedState at h ⊢
  rw [List.all_eq_true] at h ⊢
  intro p hp
  simp only [stSetValue_cell_map, mapSetValue, List.mem_map] at hp
  obtain ⟨q, hq, rfl⟩ := hp
  have horig := h q hq
  by_cases hqa : q.1 = a
  · rw [if_pos hqa]
    cases hn : q.2 with
    | cell c =>
      rw [hn] at horig
      simp only [nodeRankOK, Bool.and_eq_true] at horig
      simp only [Node.setValue, nodeRankOK, Bool.and_eq_true]
      rw [hqa]
      exact ⟨hv, by rw [← hqa]; exact horig.2⟩
    | range rg =>
      rw [hn] at horig
      simp only [nodeRankOK, Bool.and_eq_true] at horig
      simp only [Node.setValue, nodeRankOK, Bool.and_eq_true]
      rw [hqa]
      exact ⟨hv, by rw [← hqa]; exact horig.2⟩
  · rw [if_neg hqa]
    exact horig

theorem pyAdd_ne_ref (v1 v2 : PyVal) (b : Addr) : pyAdd v1 v2 ≠ some (.ref b) := by
  unfold pyAdd
  cases asNum v1 <;> cases asNum v2 <;> simp [VALUE_ERROR]

theorem pyMul_ne_ref (v1 v2 : PyVal) (b : Addr) : pyMul v1 v2 ≠ some (.ref b) := by
  unfold pyMul
  cases asNum v1 <;> cases asNum v2 <;> simp [VALUE_ERROR]

/-- The rank property required of the single-cell lookup a formula body
runs against: it preserves rankedness, its formula-invocation trace
stays at or below the looked-up address's rank, and its result is never
a reference (the dereference phase has already resolved it). -/
def evRank (rank : Addr → Nat) (ev : ExcelCompiler → Addr → Option EvalRes) : Prop :=
  ∀ st a r, rankedState rank st = true → ev st a = some r →
    rankedState rank r.1 = true ∧ (∀ b ∈ r.2.2, rank b ≤ rank a) ∧
    (∀ b, r.2.1 ≠ some (.ref b))

/-- A formula body run against a rank-respecting lookup has a strictly
rank-bounded trace, keeps the state ranked, and can only return a
reference that its own literals or lookups are rank-bounded by. -/
theorem evalExprWith_rank {rank : Addr → Nat} {ev : ExcelCompiler → Addr → Option EvalRes}
    (hev : evRank rank ev) :
    ∀ (e : Expr) (rr : Nat) (st : ExcelCompiler) (r : EvalRes),
      rankedState rank st = true → exprRankOK rank rr e = true →
      evalExprWith ev st e = some r →
      rankedState rank r.1 = true ∧ (∀ b ∈ r.2.2, rank b < rr) ∧
      (∀ b, r.2.1 = some (.ref b) → rank b < rr) := by
  intro e
  induction e with
  | lit v =>
    intro rr st r hst hok h
    simp only [evalExprWith, Option.some.injEq] at h
    rw [← h]
    refine ⟨hst, by simp, ?_⟩
    intro b hb
    have hv : v = .ref b := by
      have hb' : some v = some (.ref b) := hb
      exact Option.some.inj hb'
    rw [hv] at hok
    simpa [exprRankOK, valueRankOK] using hok
  | cellRef a =>
    intro rr st r hst hok h
    have hok' : rank a < rr := by simpa [exprRankOK] using hok
    obtain ⟨h1, h2, h3⟩ := hev st a r hst h
    exact ⟨h1, fun b hb => lt_of_le_of_lt (h2 b hb) hok',
           fun b hb => absurd hb (h3 b)⟩
  | add e1 e2 ih1 ih2 =>
    intro rr st r hst hok h
    simp only [exprRankOK, Bool.and_eq_true] at hok
    simp only [evalExprWith] at h
    split at h
    · exact Option.noConfusion h
    rename_i st1 v1 t1 he1
    split at h
    · exact Option.noConfusion h
    rename_i st2 v2 t2 he2
    simp only [Option.some.injEq] at h
    obtain ⟨ha1, ha2, _⟩ := ih1 rr st (st1, v1, t1) hst hok.1 he1
    obtain ⟨hb1, hb2, _⟩ := ih2 rr st1 (st2, v2, t2) ha1 hok.2 he2
    rw [← h]
    refine ⟨hb1, ?_, ?_⟩
    · intro b hb
      rcases List.mem_append.mp hb with hb | hb
      · exact ha2 b hb
      · exact hb2 b hb
    · intro b hb
      exact absurd hb (pyAdd_ne_ref v1 v2 b)
  | mul e1 e2 ih1 ih2 =>
    intro rr st r hst hok h
    simp only [exprRankOK, Bool.and_eq_true] at hok
    simp only [evalExprWith] at h
    split at h
    · exact Option.noConfusion h
    rename_i st1 v1 t1 he1
    split at h
    · exact Option.noConfusion h
    rename_i st2 v2 t2 he2
    simp only [Option.some.injEq] at h
    obtain ⟨ha1, ha2, _⟩ := ih1 rr st (st1, v1, t1) hst hok.1 he1
    obtain ⟨hb1, hb2, _⟩ := ih2 rr st1 (st2, v2, t2) ha1 hok.2 he2
    rw [← h]
    refine ⟨hb1, ?_, ?_⟩
    · intro b hb
      rcases List.mem_append.mp hb with hb | hb
      · exact ha2 b hb
      · exact hb2 b hb
    · intro b hb
      exact absurd hb (pyMul_ne_ref v1 v2 b)

theorem evalRowWith_rank {rank : Addr → Nat} {ev : ExcelCompiler → Addr → Option EvalRes}
    (hev : evRank rank ev) :
    ∀ (row : List Addr) (R : Nat) (st : ExcelCompiler) (r : _),
      rankedState rank st = true → (∀ m ∈ row, rank m < R) →
      evalRowWith ev st row = some r →
      rankedState rank r.1 = true ∧ ∀ b ∈ r.2.2, rank b < R := by
  intro row
  induction row with
  | nil =>
    intro R st r hst _ h
    simp only [evalRowWith, Option.some.injEq] at h
    rw [← h]
    exact ⟨hst, by simp⟩
  | cons a rest ih =>
    intro R st r hst hm h
    simp only [evalRowWith] at h
    split at h
    · exact Option.noConfusion h
    rename_i st1 v t1 he1
    split at h
    · exact Option.noConfusion h
    rename_i st2 vs t2 he2
    simp only [Option.some.injEq] at h
    obtain ⟨h1, h2, _⟩ := hev st a (st1, v, t1) hst he1
    obtain ⟨h3, h4⟩ := ih R st1 (st2, vs, t2) h1 (fun m hm' => hm m (by simp [hm'])) he2
    rw [← h]
    refine ⟨h3, ?_⟩
    intro b hb
    rcases List.mem_append.mp hb with hb | hb
    · exact lt_of_le_of_lt (h2 b hb) (hm a (by simp))
    · exact h4 b hb

theorem evalRowsWith_rank {rank : Addr → Nat} {ev : ExcelCompiler → Addr → Option EvalRes}
    (hev : evRank rank ev) :
    ∀ (rows : List (List Addr)) (R : Nat) (st : ExcelCompiler) (r : _),
      rankedState rank st = true → (∀ row ∈ rows, ∀ m ∈ row, rank m < R) →
      evalRowsWith ev st rows = some r →
      rankedState rank r.1 = true ∧ ∀ b ∈ r.2.2, rank b < R := by
  intro rows
  induction rows with
  | nil =>
    intro R st r hst _ h
    simp only [evalRowsWith, Option.some.injEq] at h
    rw [← h]
    exact ⟨hst, by simp⟩
  | cons row rest ih =>
    intro R st r hst hm h
    simp only [evalRowsWith] at h
    split at h
    · exact Option.noConfusion h
    rename_i st1 vs t1 he1
    split at h
    · exact Option.noConfusion h
    rename_i st2 rs t2 he2
    simp only [Option.some.injEq] at h
    obtain ⟨h1, h2⟩ := evalRowWith_rank hev row R st (st1, vs, t1) hst
      (fun m hm' => hm row (by simp) m hm') he1
    obtain ⟨h3, h4⟩ := ih R st1 (st2, rs, t2) h1
      (fun row' hr m hm' => hm row' (by simp [hr]) m hm') he2
    rw [← h]
    refine ⟨h3, ?_⟩
    intro b hb
    rcases List.mem_append.mp hb with hb | hb
    · exact h2 b hb
    · exact h4 b hb

/-- On a ranked (acyclic) state, `_evaluate` keeps the state ranked,
only invokes formulas of cells at or below the seed's rank, and never
returns a reference; `_evaluate_range` only invokes formulas strictly
below the range's rank. -/
theorem evalNodeRank (rank : Addr → Nat) :
    ∀ f : Nat,
      (∀ (st : ExcelCompiler) (a : Addr) (r : EvalRes),
        rankedState rank st = true → evalNode f .cell st a = some r →
        rankedState rank r.1 = true ∧ (∀ b ∈ r.2.2, rank b ≤ rank a) ∧
        (∀ b, r.2.1 ≠ some (.ref b))) ∧
      (∀ (st : ExcelCompiler) (a : Addr) (r : EvalRes),
        rankedState rank st = true → evalNode f .range st a = some r →
        rankedState rank r.1 = true ∧ (∀ b ∈ r.2.2, rank b < rank a)) := by
  intro f
  induction f with
  | zero =>
    constructor
    · intro st a r _ h; simp [evalNode] at h
    · intro st a r _ h; simp [evalNode] at h
  | succ f ih =>
    have ihc : evRank rank (evalNode f .cell) := fun st a r hst h => ih.1 st a r hst h
    constructor
    · -- the `.cell` case
      intro st a r hst h
      simp only [evalNode] at h
      cases hL : mapLookup st.cell_map a with
      | none => rw [hL] at h; exact Option.noConfusion h
      | some node =>
        rw [hL] at h
        simp only [] at h
        cases hc : computeStep (evalNode f .cell) (evalNode f .range) st a node with
        | none => rw [hc] at h; exact Option.noConfusion h
        | some res1 =>
          obtain ⟨st1, tr1⟩ := res1
          rw [hc] at h
          simp only [] at h
          -- facts about the compute phase
          have hcomp : rankedState rank st1 = true ∧ ∀ b ∈ tr1, rank b ≤ rank a := by
            by_cases hv : node.value = none
            · simp only [computeStep, if_pos hv] at hc
              cases node with
              | range rg =>
                simp only [] at hc
                cases hr : evalNode f .range st a with
                | none => rw [hr] at hc; exact Option.noConfusion hc
                | some resr =>
                  obtain ⟨stx, vx, trx⟩ := resr
                  rw [hr] at hc
                  simp only [Option.some.injEq, Prod.mk.injEq] at hc
                  obtain ⟨hc1, hc2⟩ := hc
                  obtain ⟨hr1, hr2⟩ := ih.2 st a (stx, vx, trx) hst hr
                  subst hc1
                  subst hc2
                  exact ⟨hr1, fun b hb => le_of_lt (hr2 b hb)⟩
              | cell c =>
                simp only [] at hc
                cases hf : c.formula with
                | none =>
                  rw [hf] at hc
                  simp only [Option.some.injEq, Prod.mk.injEq] at hc
                  obtain ⟨hc1, hc2⟩ := hc
                  subst hc1
                  subst hc2
                  exact ⟨hst, by simp⟩
                | some e =>
                  rw [hf] at hc
                  simp only [] at hc
                  cases hx : evalExprWith (evalNode f .cell) st e with
                  | none => rw [hx] at hc; exact Option.noConfusion hc
                  | some resx =>
                    obtain ⟨stx, vx, trx⟩ := resx
                    rw [hx] at hc
                    simp only [Option.some.injEq, Prod.mk.injEq] at hc
                    obtain ⟨hc1, hc2⟩ := hc
                    have hok : exprRankOK rank (rank a) e = true := by
                      have hn := rankedState_lookup hst hL
                      simp only [nodeRankOK, Bool.and_eq_true] at hn
                      have := hn.2
                      rw [hf] at this
                      exact this
                    obtain ⟨hx1, hx2, hx3⟩ :=
                      evalExprWith_rank ihc e (rank a) st (stx, vx, trx) hst hok hx
                    have hv1 : valueRankOK rank (rank a)
                        (if list_like vx then some VALUE_ERROR else vx) = true := by
                      by_cases hll : list_like vx = true
                      · simp [hll, valueRankOK, VALUE_ERROR]
                      · rw [if_neg (by simp [hll])]
                        cases vx with
                        | none => rfl
                        | some x =>
                          cases x with
                          | ref b =>
                            simp only [valueRankOK, decide_eq_true_eq]
                            exact hx3 b rfl
                          | num n => rfl
                          | str s => rfl
                          | boolean bo => rfl
                          | err s => rfl
                          | vlist vs => rfl
                    subst hc1
                    subst hc2
                    refine ⟨rankedState_setValue hx1 hv1, ?_⟩
                    intro b hb
                    rcases List.mem_cons.mp hb with hb | hb
                    · rw [hb]
                    · exact le_of_lt (hx2 b hb)
            · simp only [computeStep, if_neg hv] at hc
              simp only [Option.some.injEq, Prod.mk.injEq] at hc
              obtain ⟨hc1, hc2⟩ := hc
              subst hc1
              subst hc2
              exact ⟨hst, by simp⟩
          obtain ⟨hst1, htr1⟩ := hcomp
          -- the dereference phase
          simp only [derefStep] at h
          cases hL1 : mapLookup st1.cell_map a with
          | none => rw [hL1] at h; exact Option.noConfusion h
          | some node1 =>
            rw [hL1] at h
            simp only [] at h
            split at h
            · -- reference: recurse on the target
              rename_i t href
              have htlt : rank t < rank a := by
                have hn1 := rankedState_lookup hst1 hL1
                cases node1 with
                | cell c1 =>
                  simp only [nodeRankOK, Bool.and_eq_true] at hn1
                  have hval := hn1.1
                  have href' : c1.value = some (.ref t) := href
                  rw [href'] at hval
                  simpa [valueRankOK] using hval
                | range rg1 =>
                  simp only [nodeRankOK, Bool.and_eq_true] at hn1
                  have hval := hn1.1
                  have href' : rg1.value = some (.ref t) := href
                  rw [href'] at hval
                  simpa [valueRankOK] using hval
              cases h2 : evalNode f .cell st1 t with
              | none => rw [h2] at h; exact Option.noConfusion h
              | some res2 =>
                obtain ⟨st2, v2, tr2⟩ := res2
                rw [h2] at h
                simp only [Option.some.injEq] at h
                obtain ⟨h21, h22, h23⟩ := ih.1 st1 t (st2, v2, tr2) hst1 h2
                rw [← h]
                refine ⟨h21, ?_, h23⟩
                intro b hb
                rcases List.mem_append.mp hb with hb | hb
                · exact htr1 b hb
                · exact le_of_lt (lt_of_le_of_lt (h22 b hb) htlt)
            · -- a plain (non-reference) value
              rename_i hnoref
              simp only [Option.some.injEq] at h
              rw [← h]
              refine ⟨hst1, htr1, ?_⟩
              intro b hb
              exact hnoref b hb
    · -- the `.range` case
      intro st a r hst h
      simp only [evalNode] at h
      cases hL : mapLookup st.cell_map a with
      | none => rw [hL] at h; exact Option.noConfusion h
      | some node =>
        rw [hL] at h
        simp only [] at h
        by_cases hv : node.value = none
        · simp only [rangeStep, if_pos hv] at h
          cases node with
          | cell c =>
            simp only [] at h
            exact Option.noConfusion h
          | range rg =>
            simp only [] at h
            cases hrows : evalRowsWith (evalNode f .cell) st rg.addresses with
            | none => rw [hrows] at h; exact Option.noConfusion h
            | some resr =>
              obtain ⟨st1, rows, tr⟩ := resr
              rw [hrows] at h
              simp only [Option.some.injEq] at h
              have hmem : ∀ row ∈ rg.addresses, ∀ m ∈ row, rank m < rank a := by
                have hn := rankedState_lookup hst hL
                simp only [nodeRankOK, Bool.and_eq_true] at hn
                have := hn.2
                rw [List.all_eq_true] at this
                intro row hrow m hm
                have hrow' := this row hrow
                rw [List.all_eq_true] at hrow'
                have := hrow' m hm
                simpa using this
              obtain ⟨h1, h2⟩ :=
                evalRowsWith_rank ihc rg.addresses (rank a) st (st1, rows, tr) hst hmem hrows
              rw [← h]
              refine ⟨rankedState_setValue h1 rfl, h2⟩
        · simp only [rangeStep, if_neg hv] at h
          simp only [Option.some.injEq] at h
          rw [← h]
          exact ⟨hst, by simp⟩

/-- C1 (amended): on an acyclic (ranked) graph, evaluating an unset
formula cell whose formula computes a non-`None`, non-reference value
runs the formula exactly once and caches the result — a list-like
result is collapsed to `VALUE_ERROR` as it is cached — and a second
`_evaluate` returns the identical cached value with no state change
and no formula invocation at all.  A formula that computes Python
`None` caches nothing and re-runs on every call (see the
counterexample); a reference-valued result (the cache then holds the
reference, which is dereferenced again on every read) is outside this
statement. -/
theorem evaluate_memoizes_on_ranked_graph
    (rank : Addr → Nat) (f : Nat) (st : ExcelCompiler) (addr : Addr)
    (c : Cell) (e : Expr) (stx : ExcelCompiler) (w w' : Value) (trx : List Addr)
    (hrank : rankedState rank st = true)
    (hL : mapLookup st.cell_map addr = some (.cell c))
    (hv : c.value = none) (hf : c.formula = some e)
    (hx : evalExprWith (evalNode f .cell) st e = some (stx, some w, trx))
    (hwref : ∀ b, w ≠ .ref b)
    (hw' : w' = if list_like (some w) then VALUE_ERROR else w) :
    _evaluate (f + 1) st addr =
      some (stSetValue stx addr (some w'), some w', addr :: trx) ∧
    (∃ c', mapLookup (stSetValue stx addr (some w')).cell_map addr = some (.cell c') ∧
      c'.value = some w') ∧
    (addr :: trx).count addr = 1 ∧
    (∀ f', _evaluate (f' + 1) (stSetValue stx addr (some w')) addr =
      some (stSetValue stx addr (some w'), some w', [])) := by
  have hw'ref : ∀ b, w' ≠ Value.ref b := by
    intro b hcon
    rw [hw'] at hcon
    by_cases hl : list_like (some w) = true
    · rw [if_pos hl] at hcon; exact Value.noConfusion hcon
    · rw [if_neg hl] at hcon; exact hwref b hcon
  have hv1 : (if list_like (some w) then some VALUE_ERROR else (some w : PyVal)) =
      some w' := by
    rw [hw']
    by_cases hl : list_like (some w) = true
    · rw [if_pos hl, if_pos hl]
    · rw [if_neg hl, if_neg hl]
  -- the cell still exists (with its formula) after the body ran
  have hevc : evPresOK (evalNode f .cell) := fun st a r h => evalNode_pres f .cell st a r h
  have hx1 : evalPres st stx := evalExprWith_pres hevc e st (stx, some w, trx) hx
  have hcx : ∃ c', mapLookup stx.cell_map addr = some (.cell c') := by
    have hs := hx1.1 addr
    rw [hL] at hs
    cases hlx : mapLookup stx.cell_map addr with
    | none => rw [hlx] at hs; exact hs.elim
    | some n' =>
      rw [hlx] at hs
      cases n' with
      | cell c' => exact ⟨c', rfl⟩
      | range r' => exact hs.elim
  obtain ⟨c', hlx⟩ := hcx
  have hlex : mapLookup (stSetValue stx addr (some w')).cell_map addr =
      some (.cell { c' with value := some w' }) := by
    rw [stSetValue_cell_map, mapLookup_setValue_self, hlx]
    rfl
  have hcs : computeStep (evalNode f .cell) (evalNode f .range) st addr (.cell c) =
      some (stSetValue stx addr (some w'), addr :: trx) := by
    simp only [computeStep, Node.value, hv, if_true]
    simp only [hf, hx]
    simp [hv1]
  have hds : derefStep (evalNode f .cell) (stSetValue stx addr (some w'))
      (addr :: trx) addr =
      some (stSetValue stx addr (some w'), some w', addr :: trx) := by
    simp only [derefStep, hlex]
    cases hwc : w' with
    | ref b => exact absurd hwc (hw'ref b)
    | num n => rfl
    | str s => rfl
    | boolean b => rfl
    | err s => rfl
    | vlist vs => rfl
  have hfirst : _evaluate (f + 1) st addr =
      some (stSetValue stx addr (some w'), some w', addr :: trx) := by
    simp only [_evaluate, evalNode, hL]
    simp only [hcs]
    exact hds
  -- the trace mentions the seed exactly once, by the rank bound
  have hok : exprRankOK rank (rank addr) e = true := by
    have hn := rankedState_lookup hrank hL
    simp only [nodeRankOK, Bool.and_eq_true] at hn
    have := hn.2
    rw [hf] at this
    exact this
  have hcount : (addr :: trx).count addr = 1 := by
    obtain ⟨_, hx2, _⟩ :=
      evalExprWith_rank (fun st a r hst h => (evalNodeRank rank f).1 st a r hst h)
        e (rank addr) st (stx, some w, trx) hrank hok hx
    have hnm : addr ∉ trx := by
      intro hmem
      exact absurd (hx2 addr hmem) (lt_irrefl _)
    rw [List.count_cons_self, List.count_eq_zero.mpr hnm]
  refine ⟨hfirst, ⟨{ c' with value := some w' }, hlex, rfl⟩, hcount, ?_⟩
  intro f'
  have hcs2 : computeStep (evalNode f' .cell) (evalNode f' .range)
      (stSetValue stx addr (some w')) addr (.cell { c' with value := some w' }) =
      some (stSetValue stx addr (some w'), []) := by
    have hvne : ¬ ((Node.cell { c' with value := some w' }).value = none) := by
      simp [Node.value]
    rw [computeStep.eq_def, if_neg hvne]
  have hds2 : derefStep (evalNode f' .cell) (stSetValue stx addr (some w')) [] addr =
      some (stSetValue stx addr (some w'), some w', []) := by
    simp only [derefStep, hlex]
    cases hwc : w' with
    | ref b => exact absurd hwc (hw'ref b)
    | num n => rfl
    | str s => rfl
    | boolean b => rfl
    | err s => rfl
    | vlist vs => rfl
  simp only [_evaluate, evalNode, hlex]
  simp only [hcs2]
  exact hds2

/-- Witness cell for C1: an unset cell whose formula is the literal 7. -/
def w1c : Cell := { value := none, formula := some (.lit (.num 7)) }

/-- Witness state for C1. -/
def w1St : ExcelCompiler :=
  { cell_map := [("A1", .cell w1c)]
    dep_graph := ⟨[], []⟩
    graph_todos := []
    range_todos := []
    excel_hash := none
    extra_data := [] }

theorem evaluate_memoizes_on_ranked_graph_witness :
    rankedState (fun _ => 0) w1St = true ∧
    _evaluate 1 w1St "A1" =
      some (stSetValue w1St "A1" (some (.num 7)), some (.num 7), ["A1"]) ∧
    (["A1"] : List Addr).count "A1" = 1 ∧
    _evaluate 6 (stSetValue w1St "A1" (some (.num 7))) "A1" =
      some (stSetValue w1St "A1" (some (.num 7)), some (.num 7), []) := by
  have h := evaluate_memoizes_on_ranked_graph (fun _ => 0) 0 w1St "A1" w1c
    (.lit (.num 7)) w1St (.num 7) (.num 7) []
    (by decide) (by decide) (by decide) (by decide) rfl
    (fun b hb => Value.noConfusion hb) rfl
  exact ⟨by decide, h.1, h.2.2.1, h.2.2.2 5⟩

/-- Counterexample state for C1: `A1` is an empty cell in the map and
`B1`'s formula is a bare reference to it, so the formula evaluates to
Python `None`. -/
def c1xSt : ExcelCompiler :=
  { cell_map := [("A1", .cell { value := none, formula := none }),
                 ("B1", .cell { value := none, formula := some (.cellRef "A1") })]
    dep_graph := ⟨["B1", "A1"], [("A1", "B1")]⟩
    graph_todos := []
    range_todos := []
    excel_hash := none
    extra_data := [] }

/-- C1 counterexample: evaluating the unset `B1` twice with no
intervening write invokes its formula twice — the first call computes
`None`, which does not cache (the cell's slot is `None` again, i.e.
still unset), so the second call re-runs the formula instead of
returning a cached value. -/
theorem evaluate_twice_reruns_formula_when_result_is_none :
    mapLookup c1xSt.cell_map "B1" =
      some (.cell { value := none, formula := some (.cellRef "A1") }) ∧
    _evaluate 2 c1xSt "B1" = some (c1xSt, none, ["B1"]) ∧
    ((_evaluate 2 c1xSt "B1").bind fun r1 =>
      (_evaluate 2 r1.1 "B1").map fun r2 => r1.2.2 ++ r2.2.2) = some ["B1", "B1"] := by
  decide

/-!
## The text round trip (save → load → save)
-/

/-- The cell a stored record replays to (`build_cell` over
`_CompiledImporter._get_cell`): a formula record becomes an unset
formula cell, a literal record a formula-less value cell. -/
def recToCell : CellRecord → Cell
  | .fmla e => { value := none, formula := some e }
  | .val v => { value := v, formula := none }

/-- Does the address hold a (serializable) cell node? -/
def isCellKey (m : List (Addr × Node)) (a : Addr) : Bool :=
  match mapLookup m a with
  | some (.cell _) => true
  | _ => false

/-- Closure of a map under formula precedents: every precedent of every
cell formula is itself a cell key (the invariant `_process_gen_graph`
establishes for every built graph). -/
def textClosed (m : List (Addr × Node)) : Bool :=
  m.all fun p =>
    match p.2 with
    | .cell c =>
      match c.formula with
      | some e => (exprNeededAddrs e).all (isCellKey m)
      | none => true
    | .range _ => true

/-- Strict key order on records. -/
def keyLt (p q : Addr × CellRecord) : Prop := p.1 < q.1

instance : DecidableRel keyLt := fun p q => by
  unfold keyLt; infer_instance

instance : IsTotal (Addr × CellRecord) keyLe := ⟨fun a b => le_total a.1 b.1⟩

instance : IsTrans (Addr × CellRecord) keyLe := ⟨fun _ _ _ h1 h2 => le_trans h1 h2⟩

instance : IsAntisymm (Addr × CellRecord) keyLt :=
  ⟨fun _ _ h1 h2 => absurd h2 (lt_asymm h1)⟩

theorem cellValue_recToCell (r : CellRecord) : cell_value (recToCell r) = r := by
  cases r <;> rfl

theorem mapLookup_append (m1 m2 : List (Addr × Node)) (a : Addr) :
    mapLookup (m1 ++ m2) a =
      match mapLookup m1 a with
      | some n => some n
      | none => mapLookup m2 a := by
  induction m1 with
  | nil => simp [mapLookup_nil]
  | cons p m1 ih =>
    by_cases h : p.1 = a
    · simp [List.cons_append, mapLookup_cons, h]
    · simp [List.cons_append, mapLookup_cons, h, ih]

theorem mapLookup_isSome_iff (m : List (Addr × Node)) (a : Addr) :
    (mapLookup m a).isSome = true ↔ a ∈ m.map Prod.fst := by
  induction m with
  | nil => simp [mapLookup_nil]
  | cons p m ih =>
    by_cases h : p.1 = a
    · simp [mapLookup_cons, h]
    · simp [mapLookup_cons, h, ih]
      intro hcon
      exact absurd hcon.symm h

theorem find?_key_nodup {α : Type} (key : Addr × α → Addr) :
    ∀ (l : List (Addr × α)) (p : Addr × α), p ∈ l → (l.map key).Nodup →
      (key = Prod.fst) → l.find? (fun q => q.1 = p.1) = some p := by
  intro l
  induction l with
  | nil => intro p hp; exact absurd hp (List.not_mem_nil p)
  | cons q l ih =>
    intro p hp hnd hkey
    subst hkey
    simp only [List.map_cons, List.nodup_cons] at hnd
    rcases List.mem_cons.mp hp with hp | hp
    · subst hp
      simp [List.find?_cons]
    · by_cases hq : q.1 = p.1
      · exfalso
        apply hnd.1
        rw [hq]
        exact List.mem_map.mpr ⟨p, hp, rfl⟩
      · rw [List.find?_cons_of_neg _ (by simpa using hq)]
        exact ih p hp hnd.2 rfl

/-- The importer finds exactly the stored record of each address. -/
theorem importerOf_getCell {records : List (Addr × CellRecord)}
    (hnd : (records.map Prod.fst).Nodup) {p : Addr × CellRecord} (hp : p ∈ records) :
    (importerOf records).getCell p.1 = recordCellData p.2 := by
  simp only [importerOf]
  rw [find?_key_nodup Prod.fst records p hp hnd rfl]
  rfl

/-- Replaying `_make_cells` over a list of fresh records appends exactly
the replayed cells to the map and queues exactly the formula records. -/
theorem buildRecords_go (src : DataSource) :
    ∀ (todo : List (Addr × CellRecord)) (st : ExcelCompiler),
      (∀ p ∈ todo, src.getCell p.1 = recordCellData p.2) →
      (∀ p ∈ todo, mapLookup st.cell_map p.1 = none) →
      ((todo.map Prod.fst).Nodup) →
      ∃ stA, buildRecords src st (todo.map Prod.fst) = some stA ∧
        stA.cell_map = st.cell_map ++ todo.map (fun p => (p.1, Node.cell (recToCell p.2))) ∧
        stA.graph_todos = st.graph_todos ++
          (todo.filter fun p => match p.2 with | .fmla _ => true | .val _ => false).map
            Prod.fst ∧
        stA.range_todos = st.range_todos ∧
        stA.excel_hash = st.excel_hash ∧
        stA.extra_data = st.extra_data := by
  intro todo
  induction todo with
  | nil =>
    intro st _ _ _
    exact ⟨st, rfl, by simp, by simp, rfl, rfl, rfl⟩
  | cons p rest ih =>
    intro st hsrc hfresh hnd
    simp only [List.map_cons, List.nodup_cons] at hnd
    have hsp := hsrc p (by simp)
    have hfp := hfresh p (by simp)
    -- one `_make_cells` step
    have hmc : ∃ st1, _make_cells src st p.1 = some st1 ∧
        st1.cell_map = st.cell_map ++ [(p.1, Node.cell (recToCell p.2))] ∧
        st1.graph_todos = st.graph_todos ++
          (match p.2 with | .fmla _ => [p.1] | .val _ => []) ∧
        st1.range_todos = st.range_todos ∧
        st1.excel_hash = st.excel_hash ∧
        st1.extra_data = st.extra_data := by
      simp only [_make_cells, hfp, hsp]
      cases hr : p.2 with
      | fmla e =>
        refine ⟨_, rfl, ?_, ?_, rfl, rfl, rfl⟩ <;> simp [recordCellData, recToCell]
      | val v =>
        refine ⟨_, rfl, ?_, ?_, rfl, rfl, rfl⟩ <;> simp [recordCellData, recToCell]
    obtain ⟨st1, hst1, hm1, hg1, hr1, hh1, he1⟩ := hmc
    have hfresh1 : ∀ q ∈ rest, mapLookup st1.cell_map q.1 = none := by
      intro q hq
      rw [hm1, mapLookup_append, hfresh q (by simp [hq])]
      have hne : p.1 ≠ q.1 := by
        intro hcon
        exact hnd.1 (hcon ▸ List.mem_map.mpr ⟨q, hq, rfl⟩)
      simp [mapLookup_cons, hne]
    obtain ⟨stA, hA, hAm, hAg, hAr, hAh, hAe⟩ :=
      ih st1 (fun q hq => hsrc q (by simp [hq])) hfresh1 hnd.2
    refine ⟨stA, ?_, ?_, ?_, ?_, ?_, ?_⟩
    · simp only [List.map_cons, buildRecords, hst1]
      exact hA
    · rw [hAm, hm1]
      simp
    · rw [hAg, hg1]
      rcases hpr : p.2 with e | v <;> simp [List.filter_cons, hpr]
    · rw [hAr, hr1]
    · rw [hAh, hh1]
    · rw [hAe, he1]

/-- When every precedent is already in the map, the precedent loop only
adds graph edges: the cell map, the work queues and the metadata are
untouched. -/
theorem processPrecedents_present (src : DataSource) (dep : Addr) :
    ∀ (l : List Addr) (st : ExcelCompiler),
      (∀ p ∈ l, (mapLookup st.cell_map p).isSome = true) →
      ∃ st', processPrecedents src dep st l = some st' ∧
        st'.cell_map = st.cell_map ∧
        st'.graph_todos = st.graph_todos ∧
        st'.range_todos = st.range_todos ∧
        st'.excel_hash = st.excel_hash ∧
        st'.extra_data = st.extra_data := by
  intro l
  induction l with
  | nil => intro st _; exact ⟨st, rfl, rfl, rfl, rfl, rfl, rfl⟩
  | cons p rest ih =>
    intro st hall
    have hp := hall p (by simp)
    obtain ⟨st', h1, h2, h3, h4, h5, h6⟩ :=
      ih { st with dep_graph := st.dep_graph.addEdge p dep }
        (fun q hq => hall q (by simp [hq]))
    refine ⟨st', ?_, h2, h3, h4, h5, h6⟩
    simpa [processPrecedents, hp] using h1

/-- Draining `_process_gen_graph` on a closed state (every pending
node's precedents already have nodes, no pending ranges) terminates
without touching the cell map or metadata, with both queues emptied. -/
theorem process_gen_graph_closed (src : DataSource) :
    ∀ (fuel : Nat) (st : ExcelCompiler),
      st.graph_todos.length < fuel →
      st.range_todos = [] →
      (∀ a ∈ st.graph_todos, ∀ n, mapLookup st.cell_map a = some n →
        ∀ b ∈ n.neededAddresses, (mapLookup st.cell_map b).isSome = true) →
      ∃ st', _process_gen_graph src fuel st = some st' ∧
        st'.cell_map = st.cell_map ∧
        st'.graph_todos = [] ∧
        st'.range_todos = [] ∧
        st'.excel_hash = st.excel_hash ∧
        st'.extra_data = st.extra_data := by
  intro fuel
  induction fuel with
  | zero => intro st hlen; omega
  | succ f ih =>
    intro st hlen hr hclosed
    cases hlast : st.graph_todos.getLast? with
    | none =>
      have hnil : st.graph_todos = [] := List.getLast?_eq_none_iff.mp hlast
      refine ⟨{ st with range_todos := [] }, ?_, rfl, hnil, rfl, rfl, rfl⟩
      simp [_process_gen_graph, hlast, hr, evalRangeTodos]
    | some dep =>
      have hdepmem : dep ∈ st.graph_todos := by
        obtain ⟨h, hx⟩ :=
          List.mem_getLast?_eq_getLast (l := st.graph_todos) (x := dep)
            (Option.mem_def.mpr hlast)
        rw [hx]; exact List.getLast_mem h
      have hne : st.graph_todos ≠ [] := by
        intro hcon; rw [hcon] at hdepmem; exact absurd hdepmem (List.not_mem_nil dep)
      have hlen' : st.graph_todos.dropLast.length < f := by
        have h1 : 0 < st.graph_todos.length := List.length_pos.mpr hne
        rw [List.length_dropLast]; omega
      have hstep : ∃ st1, processPrecedents src dep
            { st with graph_todos := st.graph_todos.dropLast }
            (match mapLookup st.cell_map dep with
              | some n => n.neededAddresses
              | none => []) = some st1 ∧
          st1.cell_map = st.cell_map ∧
          st1.graph_todos = st.graph_todos.dropLast ∧
          st1.range_todos = [] ∧
          st1.excel_hash = st.excel_hash ∧
          st1.extra_data = st.extra_data := by
        cases hdep : mapLookup st.cell_map dep with
        | none =>
          refine ⟨{ st with graph_todos := st.graph_todos.dropLast }, ?_, rfl, rfl, hr,
            rfl, rfl⟩
          simp [hdep, processPrecedents]
        | some n =>
          obtain ⟨st1, h1, h2, h3, h4, h5, h6⟩ :=
            processPrecedents_present src dep n.neededAddresses
              { st with graph_todos := st.graph_todos.dropLast }
              (fun b hb => hclosed dep hdepmem n hdep b hb)
          refine ⟨st1, ?_, h2, h3, h4.trans hr, h5, h6⟩
          simpa [hdep] using h1
      obtain ⟨st1, h1, h2, h3, h4, h5, h6⟩ := hstep
      obtain ⟨st', g1, g2, g3, g4, g5, g6⟩ := ih st1 (by rw [h3]; exact hlen') h4
        (by
          intro a ha n hn b hb
          rw [h2] at hn ⊢
          exact hclosed a ((List.dropLast_sublist _).subset (h3 ▸ ha)) n hn b hb)
      refine ⟨st', ?_, g2.trans h2, g3, g4, g5.trans h5, g6.trans h6⟩
      simp only [_process_gen_graph, hlast, h1, g1]

theorem mapLookup_map_records (records : List (Addr × CellRecord)) (a : Addr) :
    mapLookup (records.map fun p => (p.1, Node.cell (recToCell p.2))) a =
      (records.find? fun p => p.1 = a).map fun p => Node.cell (recToCell p.2) := by
  induction records with
  | nil => rfl
  | cons p rest ih =>
    by_cases h : p.1 = a <;> simp [mapLookup_cons, List.find?_cons, h, ih]

theorem serializableRecords_keys_sublist (m : List (Addr × Node)) :
    ((serializableRecords m).map Prod.fst).Sublist (m.map Prod.fst) := by
  induction m with
  | nil => simp [serializableRecords]
  | cons p m ih =>
    cases hn : p.2 with
    | cell c =>
      have hs : serializableRecords (p :: m) = (p.1, cell_value c) :: serializableRecords m := by
        simp [serializableRecords, List.filterMap_cons, hn]
      rw [hs, List.map_cons, List.map_cons]
      exact ih.cons₂ p.1
    | range r =>
      have hs : serializableRecords (p :: m) = serializableRecords m := by
        simp [serializableRecords, List.filterMap_cons, hn]
      rw [hs, List.map_cons]
      exact ih.cons p.1

/-- Every stored record comes from a cell node of the map. -/
theorem mem_serializableRecords {m : List (Addr × Node)} {p : Addr × CellRecord}
    (hp : p ∈ serializableRecords m) :
    ∃ c, (p.1, Node.cell c) ∈ m ∧ p.2 = cell_value c := by
  simp only [serializableRecords, List.mem_filterMap] at hp
  obtain ⟨q, hq, hmk⟩ := hp
  cases hn : q.2 with
  | cell c =>
    rw [hn] at hmk
    injection hmk with hmk
    subst hmk
    refine ⟨c, ?_, rfl⟩
    rw [← hn]
    simpa using hq
  | range r =>
    rw [hn] at hmk
    cases hmk

/-- Every cell key of the map is a key of its stored records. -/
theorem isCellKey_mem_serializable {m : List (Addr × Node)} {b : Addr}
    (hb : isCellKey m b = true) :
    b ∈ (serializableRecords m).map Prod.fst := by
  unfold isCellKey at hb
  cases hl : mapLookup m b with
  | none => rw [hl] at hb; exact absurd hb (by simp)
  | some n =>
    rw [hl] at hb
    cases n with
    | range r => exact absurd hb (by simp)
    | cell c =>
      obtain ⟨q, hq, hq2⟩ : ∃ q, m.find? (fun p => p.1 = b) = some q ∧ q.2 = Node.cell c := by
        unfold mapLookup at hl
        cases hf : m.find? (fun p => p.1 = b) with
        | none => rw [hf] at hl; simp at hl
        | some q =>
          rw [hf] at hl
          simp only [Option.map_some'] at hl
          injection hl with hl
          exact ⟨q, rfl, hl⟩
      have hqm : q ∈ m := List.mem_of_find?_eq_some hq
      have hqb : q.1 = b := by simpa using List.find?_some hq
      refine List.mem_map.mpr ⟨(q.1, cell_value c), ?_, hqb⟩
      simp only [serializableRecords, List.mem_filterMap]
      exact ⟨q, hqm, by rw [hq2]⟩

/-- Serializing a map replayed from records gives back the records
(cell data and record forms are inverse). -/
theorem serializableRecords_map_recToCell (records : List (Addr × CellRecord)) :
    serializableRecords (records.map fun p => (p.1, Node.cell (recToCell p.2))) = records := by
  induction records with
  | nil => rfl
  | cons p rest ih =>
    show (p.1, cell_value (recToCell p.2)) :: serializableRecords
        (rest.map fun p => (p.1, Node.cell (recToCell p.2))) = p :: rest
    rw [cellValue_recToCell, ih]

/-- Two sorted record lists with the same multiset of records and
duplicate-free keys are equal. -/
theorem sorted_nodup_eq (l1 l2 : List (Addr × CellRecord))
    (hperm : l1.Perm l2)
    (h1 : List.Sorted keyLe l1) (h2 : List.Sorted keyLe l2)
    (hnd : (l1.map Prod.fst).Nodup) : l1 = l2 := by
  have hnd2 : (l2.map Prod.fst).Nodup := (hperm.map Prod.fst).nodup_iff.mp hnd
  have hlt1 : List.Sorted keyLt l1 := by
    have hne : List.Pairwise (fun p q : Addr × CellRecord => p.1 ≠ q.1) l1 :=
      List.pairwise_map.mp hnd
    exact (h1.and hne).imp fun h => lt_of_le_of_ne h.1 h.2
  have hlt2 : List.Sorted keyLt l2 := by
    have hne : List.Pairwise (fun p q : Addr × CellRecord => p.1 ≠ q.1) l2 :=
      List.pairwise_map.mp hnd2
    exact (h2.and hne).imp fun h => lt_of_le_of_ne h.1 h.2
  exact List.eq_of_perm_of_sorted hperm hlt1 hlt2

/-- `_from_text` on closed records with duplicate-free keys succeeds and
rebuilds exactly one cell node per record, carrying the hash and the
metadata over. -/
theorem fromText_replay (h : Option String) (x : List (String × String))
    (records : List (Addr × CellRecord))
    (hndR : (records.map Prod.fst).Nodup)
    (hcl : ∀ p ∈ records, ∀ e, p.2 = CellRecord.fmla e →
      ∀ b ∈ exprNeededAddrs e, b ∈ records.map Prod.fst) :
    ∃ st2, _from_text ⟨h, x, records⟩ = some st2 ∧
      st2.cell_map = records.map (fun p => (p.1, Node.cell (recToCell p.2))) ∧
      st2.excel_hash = h ∧ st2.extra_data = x := by
  obtain ⟨stA, hb, hm, hg, hr, hh, he⟩ :=
    buildRecords_go (importerOf records) records
      { cell_map := [], dep_graph := ⟨[], []⟩, graph_todos := [], range_todos := [],
        excel_hash := h, extra_data := x }
      (fun p hp => importerOf_getCell hndR hp)
      (fun _ _ => rfl) hndR
  simp only [List.nil_append] at hm hg hr hh he
  have hlen : stA.graph_todos.length < records.length + 1 := by
    rw [hg]
    have hf := List.length_filter_le
      (fun p : Addr × CellRecord =>
        match p.2 with | CellRecord.fmla _ => true | CellRecord.val _ => false) records
    simp only [List.nil_append, List.length_map]
    omega
  have hclosedA : ∀ a ∈ stA.graph_todos, ∀ n, mapLookup stA.cell_map a = some n →
      ∀ b ∈ n.neededAddresses, (mapLookup stA.cell_map b).isSome = true := by
    intro a _ n hn b hb
    rw [hm, mapLookup_map_records] at hn
    obtain ⟨q, hq, hqn⟩ : ∃ q, (records.find? fun p => p.1 = a) = some q ∧
        n = Node.cell (recToCell q.2) := by
      cases hf : records.find? fun p => p.1 = a with
      | none => rw [hf] at hn; simp at hn
      | some q =>
        rw [hf] at hn
        simp only [Option.map_some'] at hn
        injection hn with hn
        exact ⟨q, rfl, hn.symm⟩
    have hqm : q ∈ records := List.mem_of_find?_eq_some hq
    rw [hm, mapLookup_isSome_iff]
    have hkeys : (records.map fun p => (p.1, Node.cell (recToCell p.2))).map Prod.fst =
        records.map Prod.fst := by
      simp [List.map_map, Function.comp]
    rw [hkeys]
    cases hq2 : q.2 with
    | val v =>
      rw [hqn, hq2] at hb
      simp [recToCell, Node.neededAddresses] at hb
    | fmla e =>
      apply hcl q hqm e hq2 b
      rw [hqn, hq2] at hb
      simpa [recToCell, Node.neededAddresses] using hb
  obtain ⟨stB, hd, hdm, _, _, hdh, hde⟩ :=
    process_gen_graph_closed (importerOf records) (records.length + 1) stA hlen
      (hr.trans rfl) hclosedA
  refine ⟨stB, ?_, hdm.trans hm, hdh.trans hh, hde.trans he⟩
  simp only [_from_text]
  rw [hb]
  exact hd

/-- C6 counterexample state result: trimming `w2St` with the absent
address `X9` as both input and output replays `X9` from the source as
an empty cell and then deletes everything except it — with no error. -/
def w6Res : ExcelCompiler :=
  { cell_map := [("X9", .cell { value := none, formula := none })]
    dep_graph := ⟨["A1", "B1", "C1"], [("A1", "B1"), ("B1", "C1")]⟩
    graph_todos := []
    range_todos := []
    excel_hash := none
    extra_data := [] }

/-- C6 counterexample: an input address absent from the map that is
also listed as an output does *not* make `trim_graph` raise — the
claimed hard error does not happen (the `NetworkXError` arising from
the replayed, graph-less output cell is swallowed exactly because the
address is an output). -/
theorem trim_missing_input_listed_as_output_not_fatal :
    mapLookup w2St.cell_map "X9" = none ∧
    trim_graph dummySrc 32 w2St ["X9"] ["X9"] = some (.ok w6Res) := by
  decide

/-- Witness state for the amended C6: `D9` is a literal cell present in
the map but, having no formula and no dependents, absent from the
dependency graph. -/
def w6St : ExcelCompiler :=
  { cell_map := [("A1", .cell w2A), ("B1", .cell w2B), ("C1", .cell w2C),
                 ("D9", .cell { value := some (.num 1), formula := none })]
    dep_graph := ⟨["A1", "B1", "C1"], [("A1", "B1"), ("B1", "C1")]⟩
    graph_todos := []
    range_todos := []
    excel_hash := none
    extra_data := [] }

theorem trim_input_without_graph_node_value_error_witness :
    (mapLookup w6St.cell_map "D9").isSome = true ∧
    w6St.dep_graph.hasNode "D9" = false ∧
    trim_graph dummySrc 32 w6St ["D9"] ["C1"] = some (.valueError "D9") :=
  ⟨by decide, by decide,
    trim_input_without_graph_node_value_error dummySrc 32 w6St "D9" [] ["C1"]
      (by decide) (by decide) (by decide) (by decide) (by decide) (by decide)
      (by decide)⟩

/-- The B1 formula of the C3 scenario: `=A1*3+E1`. -/
def w3fB : Expr := .add (.mul (.cellRef "A1") (.lit (.num 3))) (.cellRef "E1")

/-- The C1 formula of the C3 scenario: `=B1+1`. -/
def w3fC : Expr := .add (.cellRef "B1") (.lit (.num 1))

/-- C3 scenario, freshly built: input `A1 = 2`; `B1 = A1*3+E1`;
output `C1 = B1+1`; `D1 = 5` unrelated; `E1 = 4` feeding `B1` but not
downstream of `A1`. -/
def w3St0 : ExcelCompiler :=
  { cell_map :=
      [("A1", .cell { value := some (.num 2), formula := none }),
       ("B1", .cell { value := none, formula := some w3fB }),
       ("C1", .cell { value := none, formula := some w3fC }),
       ("D1", .cell { value := none, formula := some (.lit (.num 5)) }),
       ("E1", .cell { value := none, formula := some (.lit (.num 4)) })]
    dep_graph := ⟨["B1", "C1", "D1", "E1", "A1"],
                  [("A1", "B1"), ("E1", "B1"), ("B1", "C1")]⟩
    graph_todos := []
    range_todos := []
    excel_hash := none
    extra_data := [] }

/-- C3 scenario after evaluating `C1`. -/
def w3St1 : ExcelCompiler :=
  { cell_map :=
      [("A1", .cell { value := some (.num 2), formula := none }),
       ("B1", .cell { value := some (.num 10), formula := some w3fB }),
       ("C1", .cell { value := some (.num 11), formula := some w3fC }),
       ("D1", .cell { value := none, formula := some (.lit (.num 5)) }),
       ("E1", .cell { value := some (.num 4), formula := some (.lit (.num 4)) })]
    dep_graph := ⟨["B1", "C1", "D1", "E1", "A1"],
                  [("A1", "B1"), ("E1", "B1"), ("B1", "C1")]⟩
    graph_todos := []
    range_todos := []
    excel_hash := none
    extra_data := [] }

/-- C3 scenario after `trim_graph(["A1"], ["C1"])`: `D1` deleted, `E1`
kept as a frozen literal leaf (formula stripped, value retained). -/
def w3St2 : ExcelCompiler :=
  { cell_map :=
      [("A1", .cell { value := some (.num 2), formula := none }),
       ("B1", .cell { value := some (.num 10), formula := some w3fB }),
       ("C1", .cell { value := some (.num 11), formula := some w3fC }),
       ("E1", .cell { value := some (.num 4), formula := none })]
    dep_graph := ⟨["B1", "C1", "D1", "E1", "A1"],
                  [("A1", "B1"), ("E1", "B1"), ("B1", "C1")]⟩
    graph_todos := []
    range_todos := []
    excel_hash := none
    extra_data := [] }

/-- C3: on the scenario graph, `trim_graph(["A1"], ["C1"])` removes the
unrelated `D1` from the address map, retains `A1`, `B1` and `C1`,
strips the formula of the still-needed `E1` while keeping its last
known value, and `evaluate("C1")` returns the same value after trimming
as before. -/
theorem trim_graph_scenario_correct :
    _evaluate 5 w3St0 "C1" = some (w3St1, some (.num 11), ["C1", "B1", "E1"]) ∧
    trim_graph dummySrc 32 w3St1 ["A1"] ["C1"] = some (.ok w3St2) ∧
    mapLookup w3St2.cell_map "D1" = none ∧
    (mapLookup w3St2.cell_map "A1").isSome = true ∧
    (mapLookup w3St2.cell_map "B1").isSome = true ∧
    (mapLookup w3St2.cell_map "C1").isSome = true ∧
    mapLookup w3St2.cell_map "E1" =
      some (.cell { value := some (.num 4), formula := none }) ∧
    _evaluate 5 w3St2 "C1" = some (w3St2, some (.num 11), []) := by
  decide

/-- C9 (amended): pickling nulls out `eval`, `excel`, `log`,
`graph_todos` and `range_todos`; unpickling restores only the logger —
the two work queues (and the `eval`/`excel` handles) are left as `None`
after a load, not reset to empty lists. -/
theorem pickle_excludes_handles_restores_logger_only (o : CompilerObj) :
    pickleRoundTrip o =
      { o with eval := none, excel := none, log := some "pycel",
               graph_todos := none, range_todos := none } := rfl

/-- A live compiler object as `__init__` leaves it: empty work queues. -/
def w9Obj : CompilerObj :=
  { eval := none
    excel := some ()
    log := some "pycel"
    graph_todos := some []
    range_todos := some []
    cell_map := [("A1", .cell w8A)]
    dep_graph := ⟨[], []⟩
    excel_hash := none
    extra_data := [] }

/-- C9 counterexample: after a pickle round trip the work queues hold
`None`, not empty lists — they are not "reset to empty on load". -/
theorem pickle_work_queues_not_reset_to_empty :
    (pickleRoundTrip w9Obj).graph_todos = none ∧
    (pickleRoundTrip w9Obj).range_todos = none ∧
    (pickleRoundTrip w9Obj).graph_todos ≠ some ([] : List Addr) ∧
    (pickleRoundTrip w9Obj).range_todos ≠ some ([] : List Addr) ∧
    (pickleRoundTrip w9Obj).log = some "pycel" := by
  refine ⟨rfl, rfl, by decide, by decide, rfl⟩

/-- C4: for every compiled graph (duplicate-free addresses, formula
precedents closed under the map — the invariant the builder leaves),
saving to text, loading the saved data, and saving again produces
identical text output: `_from_text` rebuilds one cell node per stored
record through the replay importer and carries the hash and the
metadata over, so the text form is a fixed point of the save-load
round trip. -/
theorem to_text_save_load_save_fixed_point (st : ExcelCompiler)
    (hnd : (st.cell_map.map Prod.fst).Nodup)
    (hclosed : textClosed st.cell_map = true) :
    ∃ st2, _from_text (_to_text st) = some st2 ∧ _to_text st2 = _to_text st := by
  have hperm : (List.insertionSort keyLe (serializableRecords st.cell_map)).Perm
      (serializableRecords st.cell_map) := List.perm_insertionSort keyLe _
  have hndS : ((serializableRecords st.cell_map).map Prod.fst).Nodup :=
    (serializableRecords_keys_sublist st.cell_map).nodup hnd
  have hndR : ((List.insertionSort keyLe (serializableRecords st.cell_map)).map
      Prod.fst).Nodup := ((hperm.map Prod.fst).nodup_iff).mpr hndS
  have hall : ∀ q ∈ st.cell_map, (fun p : Addr × Node =>
      match p.2 with
      | Node.cell c =>
        match c.formula with
        | some e => (exprNeededAddrs e).all (isCellKey st.cell_map)
        | none => true
      | Node.range _ => true) q = true := List.all_eq_true.mp hclosed
  have hcl : ∀ p ∈ List.insertionSort keyLe (serializableRecords st.cell_map), ∀ e,
      p.2 = CellRecord.fmla e → ∀ b ∈ exprNeededAddrs e,
        b ∈ (List.insertionSort keyLe (serializableRecords st.cell_map)).map Prod.fst := by
    intro p hp e hpe b hb
    obtain ⟨c, hcm, hcv⟩ := mem_serializableRecords (hperm.subset hp)
    have hcv' : cell_value c = CellRecord.fmla e := by rw [← hcv, hpe]
    have hcf : c.formula = some e := by
      cases hf : c.formula with
      | none => simp [cell_value, hf] at hcv'
      | some e2 =>
        simp only [cell_value, hf] at hcv'
        injection hcv' with h2
        rw [h2]
    have hA : (exprNeededAddrs e).all (isCellKey st.cell_map) = true := by
      have h2 := hall (p.1, Node.cell c) hcm
      simp only [] at h2
      rw [hcf] at h2
      simpa using h2
    have hbS : b ∈ (serializableRecords st.cell_map).map Prod.fst :=
      isCellKey_mem_serializable (List.all_eq_true.mp hA b hb)
    exact ((hperm.map Prod.fst).mem_iff).mpr hbS
  obtain ⟨st2, hft, hm2, hh2, he2⟩ :=
    fromText_replay st.excel_hash st.extra_data
      (List.insertionSort keyLe (serializableRecords st.cell_map)) hndR hcl
  refine ⟨st2, hft, ?_⟩
  have hser : serializableRecords st2.cell_map =
      List.insertionSort keyLe (serializableRecords st.cell_map) := by
    rw [hm2]; exact serializableRecords_map_recToCell _
  have hsortfix : List.insertionSort keyLe
        (List.insertionSort keyLe (serializableRecords st.cell_map)) =
      List.insertionSort keyLe (serializableRecords st.cell_map) :=
    sorted_nodup_eq _ _ (List.perm_insertionSort keyLe _)
      (List.sorted_insertionSort keyLe _) (List.sorted_insertionSort keyLe _)
      (((List.perm_insertionSort keyLe
          (List.insertionSort keyLe (serializableRecords st.cell_map))).map
            Prod.fst).nodup_iff.mpr hndR)
  show ({ excel_hash := st2.excel_hash, extra := st2.extra_data,
          cell_map :=
            List.insertionSort keyLe (serializableRecords st2.cell_map) } : TextData) =
    { excel_hash := st.excel_hash, extra := st.extra_data,
      cell_map := List.insertionSort keyLe (serializableRecords st.cell_map) }
  rw [hser, hsortfix, hh2, he2]

/-- A small concrete compiled graph: a literal input cell and a cached
formula cell reading it. -/
def w4St : ExcelCompiler :=
  { cell_map := [("A1", .cell { value := some (.num 7), formula := none }),
                 ("B1", .cell { value := some (.num 10),
                                formula := some (.add (.cellRef "A1") (.lit (.num 3))) })]
    dep_graph := ⟨["B1"], [("A1", "B1")]⟩
    graph_todos := []
    range_todos := []
    excel_hash := some "abc123"
    extra_data := [("k", "v")] }

/-- C4 witness: the concrete graph `w4St` has duplicate-free keys and
closed precedents, and its text form is a round-trip fixed point. -/
theorem to_text_save_load_save_fixed_point_witness :
    ((w4St.cell_map.map Prod.fst).Nodup ∧ textClosed w4St.cell_map = true) ∧
    ∃ st2, _from_text (_to_text w4St) = some st2 ∧ _to_text st2 = _to_text w4St :=
  ⟨⟨by decide, by decide⟩,
    to_text_save_load_save_fixed_point w4St (by decide) (by decide)⟩

end Pycel
